import Mathlib

/-!
Shallow embedding of the `file-cursor` package (greguz/file-cursor).

The repository ships two observed variants of the `FileCursor` class in
`src/file-cursor.mjs`:

* `V1` (first half of the file): synchronous `position` setter / `set` /
  `skip`, an `eof` getter, an async-iterator `next`, and `seek` which
  guarantees at most a single underlying `fs.read` per invocation
  (fetch size `max(bufferSize, remaining)`).

* `V2` (second half of the file): `read` / `seek` / `seekUntil` / `set` /
  `skip`, a virtual window `[startFrom, endAt]` (inclusive), where `set`
  performs the cache refills itself (one `fs.read` per refill sized
  `bufferSize`, clipped at the window bound), and `seek length` is defined
  as `seekUntil (fun _ pos => pos == position + length - 1)`.

The underlying byte source (an `fs.read`-able file descriptor) is modelled
as a `List Nat` of bytes: reading `n` bytes at absolute offset `p` yields
`(file.drop p).take n`, exactly the behaviour of `fs.read` on a regular
file (and of the test-suite mock).  Reads are instrumented: every operation
additionally returns the fetches `(size, absoluteOffset)` it performed, and
`seekUntil` also returns the trace of predicate invocations
`(byte?, position)`, with `none` standing for JavaScript's `undefined`
(an out-of-bounds `buffer[i]` access).
-/

namespace FileCursor

theorem take_min_length (l : List α) (a : Nat) : l.take (min a l.length) = l.take a := by
  rcases Nat.le_total a l.length with h | h
  · rw [Nat.min_eq_left h]
  · rw [Nat.min_eq_right h, List.take_length, List.take_of_length_le h]

/-! ## Variant 1 (`V1`): the synchronous-`set` cursor -/

namespace V1

/-- State of the first `FileCursor` variant: `_buffer`, `_index`,
`_position`, `_eof` and the configured `bufferSize`. -/
structure Cursor where
  bufferSize : Nat
  buffer : List Nat
  index : Nat
  pos : Nat
  eofFlag : Bool
deriving DecidableEq, Repr

/-- `get eof () { return this._eof === true && this._index >= this._buffer.byteLength }` -/
def eof (c : Cursor) : Bool :=
  c.eofFlag && decide (c.buffer.length ≤ c.index)

/-- `get position () { return this._position + this._index }` -/
def position (c : Cursor) : Nat :=
  c.pos + c.index

/-- The `position` setter (`set position (value)`): clears `_eof`, then
either moves `_index` inside the cached buffer or resets the cache. -/
def setPos (c : Cursor) (v : Nat) : Cursor :=
  let c0 : Cursor := { c with eofFlag := false }
  if c0.pos ≤ v ∧ v < c0.pos + c0.buffer.length then
    { c0 with index := v - c0.pos }
  else
    { c0 with buffer := [], index := 0, pos := v }

/-- `skip (offset)`: `if (offset > 0) this.set(this.position + offset)`. -/
def skip (c : Cursor) (off : Nat) : Cursor :=
  if 0 < off then setPos c (position c + off) else c

/-- `seek (length)`: head from the cache, then at most one `fs.read` of
`max(bufferSize, remaining)` bytes at the current absolute position.
Returns the bytes, the new cursor, and the fetch performed (if any),
as a `(size, absoluteOffset)` pair. -/
def seek (file : List Nat) (c : Cursor) (n : Nat) :
    List Nat × Cursor × Option (Nat × Nat) :=
  if n = 0 then ([], c, none)
  else
    let m := min (c.buffer.length - c.index) n
    let head := (c.buffer.drop c.index).take m
    let c1 : Cursor := { c with index := c.index + m }
    if n ≤ m then (head, c1, none)
    else if c1.eofFlag then (head, c1, none)
    else
      let rest := n - m
      let readSize := max c.bufferSize rest
      let P := c1.pos + c1.index
      let nb := (file.drop P).take readSize
      let idx := min rest nb.length
      (head ++ nb.take idx,
       { c1 with buffer := nb, eofFlag := decide (nb.length < readSize),
                 pos := P, index := idx },
       some (readSize, P))

/-- One step of the async-iterator protocol (`next`): done when `eof`, or
when the inner `seek(bufferSize)` returns no bytes. -/
def next (file : List Nat) (c : Cursor) : Option (List Nat) × Cursor :=
  if eof c then (none, c)
  else
    let r := seek file c c.bufferSize
    if r.1.length = 0 then (none, r.2.1) else (some r.1, r.2.1)

/-- Consuming the async-iterator: concatenate the chunks produced by
repeated `next` calls.  `fuel` bounds the number of steps; `none` means the
fuel ran out before the sequence finished. -/
def drain (file : List Nat) : Nat → Cursor → Option (List Nat)
  | 0, _ => none
  | fuel+1, c =>
    match next file c with
    | (none, _) => some []
    | (some b, c') => (drain file fuel c').map (fun t => b ++ t)

/-- Constructor options of the V1 class: presence of `fd`/`fileHandle`,
plus the numeric `bufferSize` and `position` options (`none` = absent). -/
structure Options where
  hasSource : Bool
  bufferSize : Option Int
  position : Option Int
deriving DecidableEq, Repr

/-- The effective buffer size of the V1 constructor,
`options.bufferSize || 16384`: a `bufferSize` of `0` is falsy in
JavaScript and silently replaced by the default. -/
def effBufferSize (o : Options) : Int :=
  match o.bufferSize with
  | none => 16384
  | some b => if b = 0 then 16384 else b

/-- The V1 constructor. -/
def mkCursor (o : Options) : Except String Cursor :=
  if ¬ o.hasSource then .error "Expected file descriptor"
  else if effBufferSize o ≤ 0 then .error "Buffer size must be a positive integer"
  else if (o.position).getD 0 < 0 then .error "Initial position a positive integer or zero"
  else .ok { bufferSize := (effBufferSize o).toNat, buffer := [], index := 0,
             pos := ((o.position).getD 0).toNat, eofFlag := false }

/-- Coherence invariant of a reachable V1 cursor: the cache is a faithful
slice of the file at `pos`, the cache cursor is in bounds, the EOF flag is
only set once the cache reaches the end of the file, and the configured
buffer size is positive. -/
def Inv (file : List Nat) (c : Cursor) : Prop :=
  c.buffer = (file.drop c.pos).take c.buffer.length
  ∧ c.index ≤ c.buffer.length
  ∧ (c.eofFlag = true → file.length ≤ c.pos + c.buffer.length)
  ∧ 0 < c.bufferSize

/-! ### V1 lemmas -/

theorem length_of_coherent {file : List Nat} {c : Cursor}
    (h : c.buffer = (file.drop c.pos).take c.buffer.length) :
    c.buffer.length ≤ file.length - c.pos := by
  have := congrArg List.length h
  rw [List.length_take, List.length_drop] at this
  omega

theorem drop_of_coherent {file : List Nat} {c : Cursor}
    (h : c.buffer = (file.drop c.pos).take c.buffer.length) :
    c.buffer.drop c.index = (file.drop (c.pos + c.index)).take (c.buffer.length - c.index) := by
  conv_lhs => rw [h]
  rw [List.drop_take, List.drop_drop]

/-- Master specification of `V1.seek` from a coherent state: it returns
exactly the next `min n (bytes left)` bytes of the file, advances the
position by the returned length, flags `eof` exactly on a short read, and
preserves the coherence invariant. -/
theorem seek_spec1 (file : List Nat) (c : Cursor) (n : Nat) (h : Inv file c) :
    (seek file c n).1
        = (file.drop (position c)).take (min n (file.length - position c))
    ∧ position (seek file c n).2.1 = position c + (seek file c n).1.length
    ∧ (seek file c n).1.length ≤ n
    ∧ ((seek file c n).1.length < n → eof (seek file c n).2.1 = true)
    ∧ (eof c = true → (seek file c n).1 = [])
    ∧ (n = 0 → (seek file c n).1 = [] ∧ (seek file c n).2.1 = c)
    ∧ Inv file (seek file c n).2.1 := by
  obtain ⟨hcoh, hidx, heof, hbs⟩ := h
  have hlen : c.buffer.length ≤ file.length - c.pos := length_of_coherent hcoh
  have hpos : position c = c.pos + c.index := rfl
  by_cases hn : n = 0
  · subst hn
    refine ⟨?_, ?_, ?_, ?_, ?_, ?_, hcoh, hidx, heof, hbs⟩ <;> simp [seek]
  · have hmA : min (c.buffer.length - c.index) n ≤ file.length - position c := by
      omega
    have hhead : (c.buffer.drop c.index).take (min (c.buffer.length - c.index) n)
        = (file.drop (position c)).take (min (c.buffer.length - c.index) n) := by
      rw [drop_of_coherent hcoh, List.take_take, position,
        Nat.min_eq_left (Nat.min_le_left _ _)]
    have hheadlen :
        ((file.drop (position c)).take (min (c.buffer.length - c.index) n)).length
          = min (c.buffer.length - c.index) n := by
      rw [List.length_take, List.length_drop]
      omega
    by_cases h1 : n ≤ min (c.buffer.length - c.index) n
    · -- the cache alone satisfies the request
      have hnle : n ≤ c.buffer.length - c.index :=
        le_trans h1 (Nat.min_le_left _ _)
      have hm : min (c.buffer.length - c.index) n = n := by omega
      rw [hm] at hhead hheadlen hmA
      have hout : seek file c n
          = ((c.buffer.drop c.index).take n,
             { c with index := c.index + n }, none) := by
        simp only [seek, if_neg hn, hm]
        rw [if_pos (Nat.le_refl n)]
      rw [hout]
      refine ⟨?_, ?_, ?_, ?_, ?_, ?_, ?_⟩
      · rw [hhead, Nat.min_eq_left hmA]
      · rw [hhead, hheadlen]
        show c.pos + (c.index + n) = position c + n
        omega
      · rw [hhead, hheadlen]
      · rw [hhead, hheadlen]
        omega
      · intro he
        simp only [eof, Bool.and_eq_true, decide_eq_true_eq] at he
        have hnil : c.buffer.drop c.index = [] := List.drop_eq_nil_of_le (by omega)
        rw [hnil, List.take_nil]
      · intro h0; exact absurd h0 hn
      · exact ⟨hcoh, by show c.index + n ≤ c.buffer.length; omega,
          by simpa using heof, hbs⟩
    · by_cases h2 : c.eofFlag
      · -- cache insufficient but eof already flagged: return the head only
        have hm : min (c.buffer.length - c.index) n = c.buffer.length - c.index := by
          omega
        have hA : file.length - position c = c.buffer.length - c.index := by
          have := heof h2
          omega
        have hout : seek file c n
            = ((c.buffer.drop c.index).take (min (c.buffer.length - c.index) n),
               { c with index := c.index + min (c.buffer.length - c.index) n }, none) := by
          simp only [seek, if_neg hn, if_neg h1, if_pos h2]
        rw [hout]
        refine ⟨?_, ?_, ?_, ?_, ?_, ?_, ?_⟩
        · rw [hhead, hA, Nat.min_comm]
        · rw [hhead, hheadlen]
          show c.pos + (c.index + min (c.buffer.length - c.index) n) = position c + _
          omega
        · rw [hhead, hheadlen]; omega
        · intro _
          simp only [eof, h2, Bool.true_and, decide_eq_true_eq]
          show c.buffer.length ≤ c.index + min (c.buffer.length - c.index) n
          omega
        · intro he
          simp only [eof, Bool.and_eq_true, decide_eq_true_eq] at he
          have hnil : c.buffer.drop c.index = [] := List.drop_eq_nil_of_le (by omega)
          rw [hnil, List.take_nil]
        · intro h0; exact absurd h0 hn
        · refine ⟨hcoh, by show c.index + _ ≤ c.buffer.length; omega,
            by simpa using heof, hbs⟩
      · -- fetch path
        have hm : min (c.buffer.length - c.index) n = c.buffer.length - c.index := by
          omega
        simp only [seek, if_neg hn, if_neg h1]
        rw [if_neg (by simpa using h2)]
        set m := min (c.buffer.length - c.index) n with hmdef
        set rest := n - m with hrestdef
        set readSize := max c.bufferSize rest with hreadSize
        set P2 := c.pos + (c.index + m) with hP2
        set nb := (file.drop P2).take readSize with hnb
        set idx := min rest nb.length with hidx2
        have hP2pos : P2 = position c + m := by omega
        have hnblen : nb.length = min readSize (file.length - P2) := by
          rw [hnb, List.length_take, List.length_drop]
        have hrest1 : 1 ≤ rest := by omega
        have hrestle : rest ≤ readSize := by omega
        have htail : nb.take idx = (file.drop P2).take idx := by
          rw [hnb, List.take_take, Nat.min_eq_left]; omega
        have hres : (c.buffer.drop c.index).take m ++ nb.take idx
            = (file.drop (position c)).take (m + idx) := by
          rw [hhead, htail, List.take_add, List.drop_drop, hP2pos]
        have htaillen : (nb.take idx).length = idx := by
          rw [List.length_take]; omega
        have hreslen :
            ((c.buffer.drop c.index).take m ++ nb.take idx).length = m + idx := by
          rw [List.length_append, hhead, hheadlen, htaillen]
        have hmix : m + idx = min n (file.length - position c) := by omega
        refine ⟨?_, ?_, ?_, ?_, ?_, ?_, ?_⟩
        · rw [hres, hmix]
        · rw [hreslen]
          show P2 + idx = position c + (m + idx)
          omega
        · rw [hreslen]; omega
        · intro hshort
          rw [hreslen] at hshort
          simp only [eof, Bool.and_eq_true, decide_eq_true_eq]
          refine ⟨by show nb.length < readSize; omega, by show nb.length ≤ idx; omega⟩
        · intro he
          simp only [eof, Bool.and_eq_true, decide_eq_true_eq] at he
          rw [he.1] at h2; exact absurd rfl h2
        · intro h0; exact absurd h0 hn
        · refine ⟨?_, ?_, ?_, hbs⟩
          · show nb = (file.drop P2).take nb.length
            have hdlen : (file.drop P2).length = file.length - P2 :=
              List.length_drop ..
            rw [hnblen, ← hdlen, take_min_length]
          · show idx ≤ nb.length
            omega
          · intro hf
            simp only [decide_eq_true_eq] at hf
            show file.length ≤ P2 + nb.length
            omega

/-- The V1 `seek` type already shows there is at most one fetch per call;
this lemma pins down the fetch that does happen: it is sized
`max(bufferSize, remaining)` and starts at the absolute position reached
after consuming the cached head. -/
theorem seek_fetch (file : List Nat) (c : Cursor) (n : Nat) (q : Nat × Nat)
    (h : (seek file c n).2.2 = some q) :
    q = (max c.bufferSize (n - min (c.buffer.length - c.index) n),
         position c + min (c.buffer.length - c.index) n) := by
  by_cases hn : n = 0
  · simp [seek, hn] at h
  · by_cases h1 : n ≤ min (c.buffer.length - c.index) n
    · simp only [seek, if_neg hn, if_pos h1] at h
      exact absurd h (by simp)
    · by_cases h2 : c.eofFlag = true
      · simp only [seek, if_neg hn, if_neg h1] at h
        rw [if_pos h2] at h
        exact absurd h (by simp)
      · simp only [seek, if_neg hn, if_neg h1] at h
        rw [if_neg h2] at h
        simp only [Option.some.injEq] at h
        rw [← h, Prod.mk.injEq]
        refine ⟨rfl, ?_⟩
        show c.pos + (c.index + min (c.buffer.length - c.index) n)
            = c.pos + c.index + min (c.buffer.length - c.index) n
        omega

/-- A fetch happens in `V1.seek` exactly when the request is nonzero, the
cache cannot satisfy it, and `eof` has not been flagged yet. -/
theorem seek_fetch_needed (file : List Nat) (c : Cursor) (n : Nat) :
    (seek file c n).2.2 ≠ none
      ↔ (n ≠ 0 ∧ min (c.buffer.length - c.index) n < n ∧ c.eofFlag = false) := by
  by_cases hn : n = 0
  · simp [seek, hn]
  · by_cases h1 : n ≤ min (c.buffer.length - c.index) n
    · simp only [seek, if_neg hn, if_pos h1]
      simp [hn]
      omega
    · by_cases h2 : c.eofFlag = true
      · simp only [seek, if_neg hn, if_neg h1]
        rw [if_pos h2]
        simp [hn, h2]
      · simp only [seek, if_neg hn, if_neg h1]
        rw [if_neg h2]
        simp only [Bool.not_eq_true] at h2
        simp [hn, h2]
        omega

/-- The V1 `position` setter always clears the EOF flag, so `eof` reads
`false` immediately after any `set`. -/
theorem setPos_eof (c : Cursor) (v : Nat) : eof (setPos c v) = false := by
  simp only [setPos, eof]
  split <;> simp

/-- Cache-hit behaviour of the V1 `position` setter: inside the cached
window only `index` is adjusted — but the EOF flag is also unconditionally
cleared. -/
theorem setPos_hit (c : Cursor) (v : Nat)
    (h1 : c.pos ≤ v) (h2 : v < c.pos + c.buffer.length) :
    setPos c v = { c with eofFlag := false, index := v - c.pos } := by
  unfold setPos
  rw [if_pos ⟨h1, h2⟩]

/-- Cache-miss behaviour of the V1 `position` setter: the cache is cleared
and the base moved, with no fetch (the V1 setter never performs I/O). -/
theorem setPos_miss (c : Cursor) (v : Nat)
    (h : ¬(c.pos ≤ v ∧ v < c.pos + c.buffer.length)) :
    setPos c v = { c with eofFlag := false, buffer := [], index := 0, pos := v } := by
  unfold setPos
  rw [if_neg h]

/-- The V1 setter preserves the coherence invariant. -/
theorem setPos_inv (file : List Nat) (c : Cursor) (v : Nat) (h : Inv file c) :
    Inv file (setPos c v) := by
  obtain ⟨hcoh, hidx, _, hbs⟩ := h
  by_cases hin : c.pos ≤ v ∧ v < c.pos + c.buffer.length
  · rw [setPos_hit c v hin.1 hin.2]
    have h2 := hin.2
    exact ⟨hcoh, by show v - c.pos ≤ c.buffer.length; omega,
      by intro hf; exact absurd hf (by simp), hbs⟩
  · rw [setPos_miss c v hin]
    exact ⟨by simp, Nat.le_refl 0,
      by intro hf; exact absurd hf (by simp), hbs⟩

/-- `position` reads back the value written by the V1 setter. -/
theorem setPos_position (c : Cursor) (v : Nat) : position (setPos c v) = v := by
  by_cases hin : c.pos ≤ v ∧ v < c.pos + c.buffer.length
  · rw [setPos_hit c v hin.1 hin.2]
    show c.pos + (v - c.pos) = v
    omega
  · rw [setPos_miss c v hin]
    show v + 0 = v
    omega

/-- A successfully constructed V1 cursor satisfies the invariant for any
file, starts with an empty cache and `eof = false`. -/
theorem mkCursor_ok1 (o : Options) (c : Cursor) (file : List Nat)
    (h : mkCursor o = .ok c) :
    Inv file c ∧ eof c = false ∧ c.buffer = [] ∧ c.index = 0 := by
  unfold mkCursor at h
  split_ifs at h with hsrc hbs hp
  · simp only [Except.ok.injEq] at h
    subst h
    refine ⟨⟨by simp, Nat.le_refl 0, by intro hf; exact absurd hf (by simp), ?_⟩,
      by simp [eof], rfl, rfl⟩
    show 0 < Int.toNat (effBufferSize o)
    omega

/-- Round-trip (C3): consuming the V1 async iterator from any coherent
state reproduces the remainder of the file from the current position. -/
theorem drain_spec (file : List Nat) :
    ∀ (fuel : Nat) (c : Cursor), Inv file c →
      file.length - position c < fuel →
      drain file fuel c = some (file.drop (position c)) := by
  intro fuel
  induction fuel with
  | zero => intro c _ hf; omega
  | succ fuel ih =>
    intro c hInv hf
    by_cases heofc : eof c = true
    · have hdrop : file.drop (position c) = [] := by
        obtain ⟨hcoh, hidx, heof, _⟩ := hInv
        simp only [eof, Bool.and_eq_true, decide_eq_true_eq] at heofc
        exact List.drop_eq_nil_of_le (by have := heof heofc.1; unfold position; omega)
      simp only [drain, next, if_pos heofc, hdrop]
    · obtain ⟨hs1, hs2, _, _, _, _, hinv2⟩ := seek_spec1 file c c.bufferSize hInv
      have hbs : 0 < c.bufferSize := hInv.2.2.2
      have hblen : (seek file c c.bufferSize).1.length
          = min c.bufferSize (file.length - position c) := by
        rw [hs1, List.length_take, List.length_drop]
        omega
      by_cases hz : (seek file c c.bufferSize).1.length = 0
      · have hdrop : file.drop (position c) = [] := by
          refine List.drop_eq_nil_of_le ?_
          omega
        simp only [drain, next, if_neg heofc, if_pos hz, hdrop]
      · have hrec := ih (seek file c c.bufferSize).2.1 hinv2 (by omega)
        simp only [drain, next, if_neg heofc, if_neg hz, hrec, Option.map_some,
          Option.some.injEq]
        rw [hs2]
        have hb : (seek file c c.bufferSize).1
            = (file.drop (position c)).take ((seek file c c.bufferSize).1.length) := by
          conv_rhs => rw [hblen]
          exact hs1
        conv_rhs => rw [← List.take_append_drop
          ((seek file c c.bufferSize).1.length) (file.drop (position c))]
        rw [← hb, List.drop_drop]
        rfl

end V1

/-! ## Variant 2 (`V2`): the windowed cursor with `read` / `seekUntil` -/

namespace V2

/-- State of the second `FileCursor` variant: `absIndex`, `relIndex`,
`buffer`, `eofReached`, plus the configuration `startFrom` / `endAt`
(`none` = `Infinity`, the bound is inclusive) and `bufferSize`. -/
structure Cursor where
  startFrom : Nat
  endAt : Option Nat
  bufferSize : Nat
  absIndex : Nat
  relIndex : Nat
  buffer : List Nat
  eofReached : Bool
deriving DecidableEq, Repr

/-- `get EOB () { return this.relIndex >= this.buffer.byteLength }` -/
def EOB (c : Cursor) : Bool :=
  decide (c.buffer.length ≤ c.relIndex)

/-- `get EOF () { return this.eofReached && this.EOB }` -/
def EOF (c : Cursor) : Bool :=
  c.eofReached && EOB c

/-- `get position () { return this.absIndex + this.relIndex }` -/
def position (c : Cursor) : Nat :=
  c.absIndex + c.relIndex

/-- `realPosition >= this.endAt` (always false for an unbounded window). -/
def geEnd (e : Option Nat) (r : Nat) : Bool :=
  match e with
  | none => false
  | some e => decide (e ≤ r)

/-- `realPosition + bufferSize >= endAt` (the fetch would cross the
virtual bound). -/
def hitsEnd (e : Option Nat) (r bs : Nat) : Bool :=
  match e with
  | none => false
  | some e => decide (e ≤ r + bs)

/-- Size of the buffer allocated by `set`: `bufferSize`, or
`endAt + 1 - realPosition` when the fetch would cross the virtual bound. -/
def allocSize (e : Option Nat) (r bs : Nat) : Nat :=
  match e with
  | none => bs
  | some e => if e ≤ r + bs then e + 1 - r else bs

/-- `set(position)`: reuse the cache when the target is inside it;
otherwise invalidate and refill via one clipped fetch, or mark EOF with an
empty cache when the real offset is at or past `endAt`.  Also returns the
fetch performed, if any, as a `(size, realOffset)` pair. -/
def set (file : List Nat) (c : Cursor) (p : Nat) :
    Cursor × Option (Nat × Nat) :=
  if c.absIndex ≤ p ∧ p < c.absIndex + c.buffer.length then
    ({ c with relIndex := p - c.absIndex }, none)
  else
    let r := c.startFrom + p
    if geEnd c.endAt r then
      ({ c with absIndex := p, relIndex := 0, eofReached := true, buffer := [] },
       none)
    else
      let n := allocSize c.endAt r c.bufferSize
      let data := (file.drop r).take n
      ({ c with absIndex := p, relIndex := 0,
                eofReached := decide (data.length < n) || hitsEnd c.endAt r c.bufferSize,
                buffer := data },
       some (n, r))

/-- Result of an instrumented V2 run: the returned bytes, the final cursor,
the trace of predicate invocations (`none` = JavaScript `undefined`), and
the fetches performed. -/
structure Run where
  bytes : List Nat
  cur : Cursor
  calls : List (Option Nat × Nat)
  fetches : List (Nat × Nat)
deriving DecidableEq, Repr

/-- The body of the `while` loop of `seekUntil`, with explicit fuel
(`none` = fuel exhausted).  `start` is the local chunk marker, `acc` the
concatenation of the flushed chunks. -/
def seekUntilGo (file : List Nat) (pred : Option Nat → Nat → Bool) :
    Nat → Cursor → Nat → List Nat → List (Option Nat × Nat) → List (Nat × Nat) →
    Option Run
  | 0, _, _, _, _, _ => none
  | fuel+1, c, start, acc, tr, fs =>
    let refill := EOB c
    let acc1 := if refill then acc ++ c.buffer.drop start else acc
    let sr := if refill then set file c (c.absIndex + c.buffer.length) else (c, none)
    let c1 := sr.1
    let start1 := if refill then c1.relIndex else start
    let fs1 := fs ++ sr.2.toList
    let p := position c1
    let byte := c1.buffer[c1.relIndex]?
    let c2 : Cursor := { c1 with relIndex := c1.relIndex + 1 }
    let tr1 := tr ++ [(byte, p)]
    if pred byte p || EOF c2 then
      some ⟨acc1 ++ (c2.buffer.drop start1).take (c2.relIndex - start1), c2, tr1, fs1⟩
    else
      seekUntilGo file pred fuel c2 start1 acc1 tr1 fs1

/-- The tail of one `seekUntil` loop iteration, after the optional refill:
read a byte, evaluate the predicate, stop or continue. -/
def goConsume (file : List Nat) (pred : Option Nat → Nat → Bool) (fuel : Nat)
    (c1 : Cursor) (start1 : Nat) (acc1 : List Nat)
    (tr : List (Option Nat × Nat)) (fs1 : List (Nat × Nat)) : Option Run :=
  let p := position c1
  let byte := c1.buffer[c1.relIndex]?
  let c2 : Cursor := { c1 with relIndex := c1.relIndex + 1 }
  let tr1 := tr ++ [(byte, p)]
  if pred byte p || EOF c2 then
    some ⟨acc1 ++ (c2.buffer.drop start1).take (c2.relIndex - start1), c2, tr1, fs1⟩
  else
    seekUntilGo file pred fuel c2 start1 acc1 tr1 fs1

/-- Unfolding a fuelled `seekUntil` iteration into refill + consume. -/
theorem seekUntilGo_succ (file : List Nat) (pred : Option Nat → Nat → Bool)
    (fuel : Nat) (c : Cursor) (start : Nat) (acc : List Nat)
    (tr : List (Option Nat × Nat)) (fs : List (Nat × Nat)) :
    seekUntilGo file pred (fuel+1) c start acc tr fs
      = if EOB c then
          goConsume file pred fuel (set file c (c.absIndex + c.buffer.length)).1
            (set file c (c.absIndex + c.buffer.length)).1.relIndex
            (acc ++ c.buffer.drop start) tr
            (fs ++ (set file c (c.absIndex + c.buffer.length)).2.toList)
        else goConsume file pred fuel c start acc tr fs := by
  by_cases h : EOB c = true <;>
    simp [seekUntilGo, goConsume, h]

/-- `seekUntil(predicate)`: empty result when `EOF` is already set,
otherwise run the loop. -/
def seekUntil (file : List Nat) (fuel : Nat) (c : Cursor)
    (pred : Option Nat → Nat → Bool) : Option Run :=
  if EOF c then some ⟨[], c, [], []⟩
  else seekUntilGo file pred fuel c c.relIndex [] [] []

/-- `seek(length)`: `seekUntil((byte, position) => position === lastByteIndex)`
with `lastByteIndex = position + length - 1`; `length = 0` returns an empty
buffer at once. -/
def seek (file : List Nat) (fuel : Nat) (c : Cursor) (n : Nat) : Option Run :=
  if n = 0 then some ⟨[], c, [], []⟩
  else seekUntil file fuel c (fun _ p => decide (p = position c + n - 1))

/-- `read(length)`: `seek`, then fail with `Truncated (EOF)` when fewer
than `length` bytes came back. -/
def read (file : List Nat) (fuel : Nat) (c : Cursor) (n : Nat) :
    Option (Except String (List Nat) × Cursor) :=
  (seek file fuel c n).map (fun run =>
    (if run.bytes.length < n then .error "Truncated (EOF)" else .ok run.bytes,
     run.cur))

/-- `skip(length)`: `set(position + length)`. -/
def skip (file : List Nat) (c : Cursor) (n : Nat) : Cursor × Option (Nat × Nat) :=
  set file c (position c + n)

/-- Constructor options of the V2 class.  `endAt`: outer `none` = option
absent (defaults to `Infinity`), `some none` = explicit `Infinity`,
`some (some i)` = the integer `i`. -/
structure Options where
  hasSource : Bool
  bufferSize : Option Int
  startFrom : Option Int
  endAt : Option (Option Int)
deriving DecidableEq, Repr

/-- The V2 constructor, validations in source order. -/
def mkCursor (o : Options) : Except String Cursor :=
  if ¬ o.hasSource then .error "Expected file descriptor"
  else if ¬ 0 < o.bufferSize.getD 16384 then
    .error "Buffer size must be a positive integer"
  else if o.startFrom.getD 0 < 0 then
    .error "Start index must be a positive integer or zero"
  else
    match o.endAt.getD none with
    | none =>
      .ok { startFrom := (o.startFrom.getD 0).toNat, endAt := none,
            bufferSize := (o.bufferSize.getD 16384).toNat,
            absIndex := 0, relIndex := 0, buffer := [], eofReached := false }
    | some e =>
      if e < o.startFrom.getD 0 then
        .error "End index cannot be less than start index"
      else
        .ok { startFrom := (o.startFrom.getD 0).toNat, endAt := some e.toNat,
              bufferSize := (o.bufferSize.getD 16384).toNat,
              absIndex := 0, relIndex := 0, buffer := [], eofReached := false }

/-- Bytes of the (windowed) file that a refill landing at logical position
`p` can still deliver: everything from real offset `startFrom + p` up to
the window bound `endAt` (inclusive), except that a refill landing at or
past `endAt` delivers nothing. -/
def winBytes (file : List Nat) (sF : Nat) (e : Option Nat) (p : Nat) : List Nat :=
  match e with
  | none => file.drop (sF + p)
  | some e => if e ≤ sF + p then [] else (file.take (e + 1)).drop (sF + p)

/-- Bytes still deliverable from the current cursor state: the unread rest
of the cache, then (unless `eofReached`) whatever a refill at the cache
end can deliver. -/
def stateBytes (file : List Nat) (c : Cursor) : List Nat :=
  c.buffer.drop c.relIndex
    ++ (if c.eofReached then []
        else winBytes file c.startFrom c.endAt (c.absIndex + c.buffer.length))

/-- Number of bytes still deliverable from the current state. -/
def remaining (file : List Nat) (c : Cursor) : Nat :=
  (stateBytes file c).length

/-- Predicate-invocation trace generated by consuming the byte list `bs`
starting at logical position `p`. -/
def callsOf : List Nat → Nat → List (Option Nat × Nat)
  | [], _ => []
  | b :: bs, p => (some b, p) :: callsOf bs (p + 1)

/-- Coherence invariant of a reachable V2 cursor. -/
def Inv (file : List Nat) (c : Cursor) : Prop :=
  c.buffer = (file.drop (c.startFrom + c.absIndex)).take c.buffer.length
  ∧ (c.relIndex ≤ c.buffer.length
      ∨ (c.buffer = [] ∧ c.relIndex = 1 ∧ c.eofReached = true))
  ∧ 0 < c.bufferSize
  ∧ (∀ e, c.endAt = some e → c.buffer ≠ [] →
      c.startFrom + c.absIndex + c.buffer.length ≤ e + 1)
  ∧ (c.eofReached = true →
      winBytes file c.startFrom c.endAt (c.absIndex + c.buffer.length) = [])
  ∧ (∀ e, c.endAt = some e → c.eofReached = false → c.buffer ≠ [] →
      c.startFrom + c.absIndex + c.buffer.length ≠ e)

/-! ### V2 `set` lemmas -/

theorem winBytes_nil_mono {file : List Nat} {sF : Nat} {e : Option Nat} {q q' : Nat}
    (h : winBytes file sF e q = []) (hle : q ≤ q') :
    winBytes file sF e q' = [] := by
  cases e with
  | none =>
    simp only [winBytes] at h ⊢
    rw [List.drop_eq_nil_iff] at h ⊢
    omega
  | some e =>
    simp only [winBytes] at h ⊢
    split at h
    · rename_i hc
      rw [if_pos (by omega)]
    · rename_i hc
      split
      · rfl
      · rw [List.drop_eq_nil_iff] at h ⊢
        omega

theorem winBytes_nil_iff {file : List Nat} {sF : Nat} {e : Option Nat} {p : Nat} :
    winBytes file sF e p = []
      ↔ (file.length ≤ sF + p ∨ ∃ b, e = some b ∧ b ≤ sF + p) := by
  cases e with
  | none => simp [winBytes, List.drop_eq_nil_iff]
  | some e =>
    simp only [winBytes]
    split
    · rename_i hc
      constructor
      · intro _
        exact Or.inr ⟨e, rfl, hc⟩
      · intro _
        rfl
    · rename_i hc
      rw [List.drop_eq_nil_iff, List.length_take]
      constructor
      · intro h
        exact Or.inl (by omega)
      · rintro (h | ⟨b, hb, hble⟩)
        · omega
        · cases hb; omega

/-- Cache-hit behaviour of V2 `set`: only `relIndex` moves, no fetch. -/
theorem set_hit (file : List Nat) (c : Cursor) (p : Nat)
    (h1 : c.absIndex ≤ p) (h2 : p < c.absIndex + c.buffer.length) :
    set file c p = ({ c with relIndex := p - c.absIndex }, none) := by
  simp only [set, if_pos (And.intro h1 h2)]

/-- Cache-miss behaviour of V2 `set` at or past the window end: EOF is
marked, the cache cleared, and no fetch happens. -/
theorem set_miss_end (file : List Nat) (c : Cursor) (p : Nat)
    (hmiss : ¬(c.absIndex ≤ p ∧ p < c.absIndex + c.buffer.length))
    (hge : geEnd c.endAt (c.startFrom + p) = true) :
    set file c p
      = ({ c with absIndex := p, relIndex := 0, eofReached := true, buffer := [] },
         none) := by
  simp only [set, if_neg hmiss, hge, if_pos]

/-- Cache-miss behaviour of V2 `set` inside the window: the cache is
replaced wholesale by exactly one clipped fetch at the real offset. -/
theorem set_miss_read (file : List Nat) (c : Cursor) (p : Nat)
    (hmiss : ¬(c.absIndex ≤ p ∧ p < c.absIndex + c.buffer.length))
    (hge : geEnd c.endAt (c.startFrom + p) = false) :
    set file c p
      = ({ c with
            absIndex := p
            relIndex := 0
            eofReached :=
              decide (((file.drop (c.startFrom + p)).take
                  (allocSize c.endAt (c.startFrom + p) c.bufferSize)).length
                < allocSize c.endAt (c.startFrom + p) c.bufferSize)
              || hitsEnd c.endAt (c.startFrom + p) c.bufferSize
            buffer := (file.drop (c.startFrom + p)).take
              (allocSize c.endAt (c.startFrom + p) c.bufferSize) },
         some (allocSize c.endAt (c.startFrom + p) c.bufferSize, c.startFrom + p)) := by
  simp only [set, if_neg hmiss, hge, Bool.false_eq_true, if_false]

/-- `position` reads back the value written by V2 `set`. -/
theorem set_position (file : List Nat) (c : Cursor) (p : Nat) :
    position (set file c p).1 = p := by
  by_cases hin : c.absIndex ≤ p ∧ p < c.absIndex + c.buffer.length
  · rw [set_hit file c p hin.1 hin.2]
    show c.absIndex + (p - c.absIndex) = p
    omega
  · by_cases hge : geEnd c.endAt (c.startFrom + p) = true
    · rw [set_miss_end file c p hin hge]
      show p + 0 = p
      omega
    · rw [set_miss_read file c p hin (by simpa using hge)]
      show p + 0 = p
      omega

theorem allocSize_pos {e : Option Nat} {r bs : Nat} (hbs : 0 < bs)
    (hge : geEnd e r = false) : 0 < allocSize e r bs := by
  cases e with
  | none => exact hbs
  | some e =>
    simp only [geEnd, decide_eq_false_iff_not, Nat.not_le] at hge
    simp only [allocSize]
    split <;> omega

theorem dataLen {file : List Nat} {r n : Nat} :
    ((file.drop r).take n).length = min n (file.length - r) := by
  rw [List.length_take, List.length_drop]

/-- If `eofReached` is set, the cursor has nothing left:
`stateBytes` is empty. -/
theorem stateBytes_of_eof (file : List Nat) (c : Cursor) (h : EOF c = true) :
    stateBytes file c = [] := by
  simp only [EOF, EOB, Bool.and_eq_true, decide_eq_true_eq] at h
  simp [stateBytes, h.1, List.drop_eq_nil_of_le h.2]

/-- V2 `set` preserves the coherence invariant. -/
theorem set_inv (file : List Nat) (c : Cursor) (p : Nat) (h : Inv file c) :
    Inv file (set file c p).1 := by
  obtain ⟨hcoh, hrel, hbs, hwin, heofp, hnend⟩ := h
  by_cases hin : c.absIndex ≤ p ∧ p < c.absIndex + c.buffer.length
  · rw [set_hit file c p hin.1 hin.2]
    have h2 := hin.2
    exact ⟨hcoh, Or.inl (by show p - c.absIndex ≤ c.buffer.length; omega), hbs,
      hwin, heofp, hnend⟩
  · by_cases hge : geEnd c.endAt (c.startFrom + p) = true
    · rw [set_miss_end file c p hin hge]
      refine ⟨by simp, Or.inl (Nat.le_refl 0), hbs, ?_, ?_, ?_⟩
      · intro e he hne; exact absurd rfl hne
      · intro _
        show winBytes file c.startFrom c.endAt (p + List.length []) = []
        cases hc : c.endAt with
        | none => rw [hc] at hge; simp [geEnd] at hge
        | some e =>
          rw [hc] at hge
          simp only [geEnd, decide_eq_true_eq] at hge
          simp only [List.length_nil, Nat.add_zero, winBytes]
          rw [if_pos hge]
      · intro e he hf hne; exact absurd hf (by simp)
    · have hge' : geEnd c.endAt (c.startFrom + p) = false := by
        simpa using hge
      rw [set_miss_read file c p hin hge']
      have hn1 : 0 < allocSize c.endAt (c.startFrom + p) c.bufferSize :=
        allocSize_pos hbs hge'
      refine ⟨?_, Or.inl (Nat.zero_le _), hbs, ?_, ?_, ?_⟩
      · show (file.drop (c.startFrom + p)).take _
            = (file.drop (c.startFrom + p)).take
                ((file.drop (c.startFrom + p)).take _).length
        rw [dataLen, ← List.length_drop, take_min_length]
      · intro e he hne
        show c.startFrom + p
            + ((file.drop (c.startFrom + p)).take _).length ≤ e + 1
        rw [dataLen]
        rw [he] at hge' ⊢
        simp only [geEnd, decide_eq_false_iff_not, Nat.not_le] at hge'
        simp only [allocSize]
        split <;> omega
      · intro hef
        show winBytes file c.startFrom c.endAt
          (p + ((file.drop (c.startFrom + p)).take _).length) = []
        rw [dataLen]
        rw [Bool.or_eq_true, decide_eq_true_eq] at hef
        rw [winBytes_nil_iff]
        rcases hef with hshort | hv
        · rw [dataLen] at hshort
          exact Or.inl (by omega)
        · cases hc : c.endAt with
          | none => rw [hc] at hv; simp [hitsEnd] at hv
          | some e =>
            rw [hc] at hv hge'
            simp only [hitsEnd, decide_eq_true_eq] at hv
            simp only [geEnd, decide_eq_false_iff_not, Nat.not_le] at hge'
            simp only [allocSize, if_pos hv]
            by_cases hfull :
                min (e + 1 - (c.startFrom + p)) (file.length - (c.startFrom + p))
                  = e + 1 - (c.startFrom + p)
            · refine Or.inr ⟨e, rfl, ?_⟩
              rw [hfull]; omega
            · refine Or.inl ?_
              omega
      · intro e he hef hne
        show c.startFrom + p
            + ((file.drop (c.startFrom + p)).take _).length ≠ e
        rw [Bool.or_eq_false_iff, decide_eq_false_iff_not, Nat.not_lt] at hef
        obtain ⟨hfull, hv⟩ := hef
        rw [he] at hv hge' ⊢
        simp only [hitsEnd, decide_eq_false_iff_not, Nat.not_le] at hv
        rw [dataLen] at hfull ⊢
        simp only [geEnd, decide_eq_false_iff_not, Nat.not_le] at hge'
        simp only [allocSize, if_neg (by omega : ¬ e ≤ c.startFrom + p + c.bufferSize)]
          at hfull ⊢
        omega

/-- After a cache-miss `set`, the deliverable bytes of the new state are
exactly the window bytes at the target position. -/
theorem set_stateBytes_miss (file : List Nat) (c : Cursor) (p : Nat)
    (hmiss : ¬(c.absIndex ≤ p ∧ p < c.absIndex + c.buffer.length))
    (hbs : 0 < c.bufferSize) :
    stateBytes file (set file c p).1 = winBytes file c.startFrom c.endAt p := by
  by_cases hge : geEnd c.endAt (c.startFrom + p) = true
  · rw [set_miss_end file c p hmiss hge]
    cases hc : c.endAt with
    | none => rw [hc] at hge; simp [geEnd] at hge
    | some e =>
      rw [hc] at hge
      simp only [geEnd, decide_eq_true_eq] at hge
      simp only [stateBytes, winBytes, hc]
      rw [if_pos hge]
      simp
  · have hge' : geEnd c.endAt (c.startFrom + p) = false := by simpa using hge
    rw [set_miss_read file c p hmiss hge']
    have hn1 : 0 < allocSize c.endAt (c.startFrom + p) c.bufferSize :=
      allocSize_pos hbs hge'
    simp only [stateBytes, List.drop_zero]
    cases hc : c.endAt with
    | none =>
      simp only [winBytes, allocSize, hitsEnd, Bool.or_false]
      by_cases hshort :
          ((file.drop (c.startFrom + p)).take c.bufferSize).length < c.bufferSize
      · rw [if_pos (by simpa using hshort)]
        rw [dataLen] at hshort
        rw [List.take_of_length_le (by rw [List.length_drop]; omega), List.append_nil]
      · rw [if_neg (by simpa using hshort)]
        rw [dataLen] at hshort
        have hfl : ((file.drop (c.startFrom + p)).take c.bufferSize).length
            = c.bufferSize := by rw [dataLen]; omega
        rw [hfl]
        conv_rhs => rw [← List.take_append_drop c.bufferSize
          (file.drop (c.startFrom + p))]
        rw [List.drop_drop,
          (by omega : c.startFrom + (p + c.bufferSize) = c.startFrom + p + c.bufferSize)]
    | some e =>
      rw [hc] at hge'
      simp only [geEnd, decide_eq_false_iff_not, Nat.not_le] at hge'
      by_cases hv : e ≤ c.startFrom + p + c.bufferSize
      · have hvt : hitsEnd (some e) (c.startFrom + p) c.bufferSize = true := by
          simp only [hitsEnd, decide_eq_true_eq]
          omega
        have hna : allocSize (some e) (c.startFrom + p) c.bufferSize
            = e + 1 - (c.startFrom + p) := by
          simp only [allocSize, if_pos hv]
        rw [hvt, hna, Bool.or_true]
        rw [if_pos (by trivial), List.append_nil]
        simp only [winBytes]
        rw [if_neg (by omega : ¬ e ≤ c.startFrom + p), List.drop_take]
      · have hvd : hitsEnd (some e) (c.startFrom + p) c.bufferSize = false := by
          simp only [hitsEnd, decide_eq_false_iff_not, Nat.not_le]
          omega
        have hna : allocSize (some e) (c.startFrom + p) c.bufferSize
            = c.bufferSize := by
          simp only [allocSize, if_neg hv]
        rw [hvd, hna, Bool.or_false]
        simp only [winBytes]
        rw [if_neg (by omega : ¬ e ≤ c.startFrom + p)]
        by_cases hshort :
            ((file.drop (c.startFrom + p)).take c.bufferSize).length < c.bufferSize
        · rw [if_pos (by simpa using hshort), List.append_nil]
          rw [dataLen] at hshort
          rw [List.take_of_length_le (by rw [List.length_drop]; omega)]
          rw [List.take_of_length_le (by omega)]
        · rw [if_neg (by simpa using hshort)]
          rw [dataLen] at hshort
          have hfl : ((file.drop (c.startFrom + p)).take c.bufferSize).length
              = c.bufferSize := by rw [dataLen]; omega
          rw [hfl]
          rw [if_neg (by omega : ¬ e ≤ c.startFrom + (p + c.bufferSize))]
          conv_rhs => rw [← List.take_append_drop c.bufferSize
            ((file.take (e + 1)).drop (c.startFrom + p))]
          congr 1
          · rw [List.drop_take, List.take_take,
              Nat.min_eq_left (by omega : c.bufferSize ≤ e + 1 - (c.startFrom + p))]
          · rw [List.drop_drop,
              (by omega :
                c.startFrom + (p + c.bufferSize) = c.startFrom + p + c.bufferSize)]

/-- A `set` to a position from which bytes are still deliverable leaves
`EOF` reading `false`. -/
theorem set_eof_false (file : List Nat) (c : Cursor) (p : Nat)
    (hbs : 0 < c.bufferSize)
    (hw : winBytes file c.startFrom c.endAt p ≠ []) :
    EOF (set file c p).1 = false := by
  by_cases hin : c.absIndex ≤ p ∧ p < c.absIndex + c.buffer.length
  · rw [set_hit file c p hin.1 hin.2]
    have h2 := hin.2
    simp only [EOF, EOB, Bool.and_eq_false_iff]
    right
    simp only [decide_eq_false_iff_not, Nat.not_le]
    show p - c.absIndex < c.buffer.length
    omega
  · by_cases hge : geEnd c.endAt (c.startFrom + p) = true
    · exfalso
      apply hw
      cases hc : c.endAt with
      | none => rw [hc] at hge; simp [geEnd] at hge
      | some e =>
        rw [hc] at hge
        simp only [geEnd, decide_eq_true_eq] at hge
        simp [winBytes, hge]
    · have hge' : geEnd c.endAt (c.startFrom + p) = false := by simpa using hge
      rw [set_miss_read file c p hin hge']
      have hn1 : 0 < allocSize c.endAt (c.startFrom + p) c.bufferSize :=
        allocSize_pos hbs hge'
      have hfl : c.startFrom + p < file.length := by
        by_contra hx
        exact hw (winBytes_nil_iff.mpr (Or.inl (by omega)))
      simp only [EOF, EOB, Bool.and_eq_false_iff]
      right
      simp only [decide_eq_false_iff_not, Nat.not_le]
      show 0 < ((file.drop (c.startFrom + p)).take _).length
      rw [dataLen]
      omega

/-- When `EOF` reads true in a coherent state, no window bytes remain at or
beyond the current position. -/
theorem eof_winBytes_nil (file : List Nat) (c : Cursor) (hInv : Inv file c)
    (h : EOF c = true) :
    winBytes file c.startFrom c.endAt (position c) = [] := by
  simp only [EOF, EOB, Bool.and_eq_true, decide_eq_true_eq] at h
  exact winBytes_nil_mono (hInv.2.2.2.2.1 h.1) (by unfold position; omega)

/-- On a cache miss, `set` puts the cursor base at the target with the
cache cursor reset. -/
theorem set_miss_base (file : List Nat) (c : Cursor) (p : Nat)
    (hmiss : ¬(c.absIndex ≤ p ∧ p < c.absIndex + c.buffer.length)) :
    (set file c p).1.absIndex = p ∧ (set file c p).1.relIndex = 0
    ∧ (set file c p).1.startFrom = c.startFrom ∧ (set file c p).1.endAt = c.endAt
    ∧ (set file c p).1.bufferSize = c.bufferSize := by
  by_cases hge : geEnd c.endAt (c.startFrom + p) = true
  · rw [set_miss_end file c p hmiss hge]
    exact ⟨rfl, rfl, rfl, rfl, rfl⟩
  · rw [set_miss_read file c p hmiss (by simpa using hge)]
    exact ⟨rfl, rfl, rfl, rfl, rfl⟩

/-- A cache-miss `set` towards a position with no deliverable window bytes
yields exactly the cleared EOF state. -/
theorem set_miss_empty (file : List Nat) (c : Cursor) (p : Nat)
    (hmiss : ¬(c.absIndex ≤ p ∧ p < c.absIndex + c.buffer.length))
    (hbs : 0 < c.bufferSize)
    (hw : winBytes file c.startFrom c.endAt p = []) :
    (set file c p).1
      = { c with absIndex := p, relIndex := 0, eofReached := true, buffer := [] } := by
  by_cases hge : geEnd c.endAt (c.startFrom + p) = true
  · rw [set_miss_end file c p hmiss hge]
  · have hge' : geEnd c.endAt (c.startFrom + p) = false := by simpa using hge
    rw [set_miss_read file c p hmiss hge']
    have hn1 : 0 < allocSize c.endAt (c.startFrom + p) c.bufferSize :=
      allocSize_pos hbs hge'
    have hfl : file.length ≤ c.startFrom + p := by
      rcases winBytes_nil_iff.mp hw with hfl | ⟨b, hb, hble⟩
      · exact hfl
      · exfalso
        rw [hb] at hge'
        simp only [geEnd, decide_eq_false_iff_not, Nat.not_le] at hge'
        omega
    have hdata : (file.drop (c.startFrom + p)).take
        (allocSize c.endAt (c.startFrom + p) c.bufferSize) = [] := by
      rw [List.drop_eq_nil_of_le hfl, List.take_nil]
    rw [hdata]
    have hef : (decide (([] : List Nat).length
          < allocSize c.endAt (c.startFrom + p) c.bufferSize)
        || hitsEnd c.endAt (c.startFrom + p) c.bufferSize) = true := by
      simp only [List.length_nil, Bool.or_eq_true, decide_eq_true_eq]
      exact Or.inl hn1
    rw [hef]

/-- A cache-miss `set` that ends with an empty cache has necessarily
flagged `eofReached`. -/
theorem set_empty_eof (file : List Nat) (c : Cursor) (p : Nat)
    (hmiss : ¬(c.absIndex ≤ p ∧ p < c.absIndex + c.buffer.length))
    (hbs : 0 < c.bufferSize)
    (hb : (set file c p).1.buffer = []) :
    (set file c p).1.eofReached = true := by
  by_cases hge : geEnd c.endAt (c.startFrom + p) = true
  · rw [set_miss_end file c p hmiss hge]
  · have hge' : geEnd c.endAt (c.startFrom + p) = false := by simpa using hge
    rw [set_miss_read file c p hmiss hge'] at hb ⊢
    have hn1 : 0 < allocSize c.endAt (c.startFrom + p) c.bufferSize :=
      allocSize_pos hbs hge'
    simp only at hb
    show (decide _ || _) = true
    rw [hb]
    simp only [List.length_nil, Bool.or_eq_true, decide_eq_true_eq]
    exact Or.inl hn1

/-- Advancing `relIndex` inside the cache preserves the invariant. -/
theorem inv_bump (file : List Nat) (c : Cursor) (h : Inv file c)
    (hlt : c.relIndex < c.buffer.length) :
    Inv file { c with relIndex := c.relIndex + 1 } := by
  obtain ⟨hcoh, _, hbs, hwin, heofp, hnend⟩ := h
  exact ⟨hcoh, Or.inl (by show c.relIndex + 1 ≤ c.buffer.length; omega), hbs,
    hwin, heofp, hnend⟩

/-- Reading the byte under the cursor splits `stateBytes` as a cons. -/
theorem stateBytes_cons (file : List Nat) (c : Cursor)
    (hlt : c.relIndex < c.buffer.length) :
    stateBytes file c
      = c.buffer[c.relIndex]
          :: stateBytes file { c with relIndex := c.relIndex + 1 } := by
  simp only [stateBytes]
  rw [List.drop_eq_getElem_cons hlt]
  rfl

/-- Specification of a terminating `seekUntilGo` run from the state `c`
with chunk marker `start`, accumulated bytes `acc` and call trace `tr`:
the run consumes the next `k` deliverable bytes, calling the predicate on
each at its position, with `ph` recording whether a final phantom call on
an `undefined` byte happened at an empty refill. -/
def GoSpec (file : List Nat) (pred : Option Nat → Nat → Bool) (c : Cursor)
    (start : Nat) (acc : List Nat) (tr : List (Option Nat × Nat))
    (run : Run) : Prop :=
  ∃ k ph,
    k ≤ (stateBytes file c).length
    ∧ run.bytes = acc ++ (c.buffer.drop start).take (c.relIndex - start)
        ++ (stateBytes file c).take k
    ∧ run.calls = tr ++ callsOf ((stateBytes file c).take k) (position c)
        ++ (if ph = true then [(none, position c + k)] else [])
    ∧ (ph = true → k = (stateBytes file c).length ∧ run.cur.buffer = []
        ∧ run.cur.relIndex = 1 ∧ run.cur.eofReached = true)
    ∧ (ph = false → run.cur.relIndex ≤ run.cur.buffer.length)
    ∧ position run.cur = position c + k + (if ph = true then 1 else 0)
    ∧ Inv file run.cur
    ∧ stateBytes file run.cur = (stateBytes file c).drop k
    ∧ (ph = false →
        (EOF run.cur = true
         ∨ (1 ≤ k ∧ ∃ b, (stateBytes file c)[k-1]? = some b
              ∧ pred (some b) (position c + (k-1)) = true)))
    ∧ (∀ j, j + 1 < k → ∃ b, (stateBytes file c)[j]? = some b
        ∧ pred (some b) (position c + j) = false)

/-- One consume step satisfies `GoSpec`, assuming the remaining fuel does. -/
theorem goConsume_spec (file : List Nat) (pred : Option Nat → Nat → Bool)
    (fuel : Nat)
    (ih : ∀ (c : Cursor) (start : Nat) (acc : List Nat)
        (tr : List (Option Nat × Nat)) (fs : List (Nat × Nat)) (run : Run),
      Inv file c → EOF c = false → c.relIndex ≤ c.buffer.length →
      start ≤ c.relIndex →
      seekUntilGo file pred fuel c start acc tr fs = some run →
      GoSpec file pred c start acc tr run)
    (c1 : Cursor) (start1 : Nat) (acc1 : List Nat)
    (tr : List (Option Nat × Nat)) (fs1 : List (Nat × Nat)) (run : Run)
    (hInv : Inv file c1) (hlt : c1.relIndex < c1.buffer.length)
    (hst : start1 ≤ c1.relIndex)
    (hgo : goConsume file pred fuel c1 start1 acc1 tr fs1 = some run) :
    GoSpec file pred c1 start1 acc1 tr run := by
  have hbyte : c1.buffer[c1.relIndex]? = some c1.buffer[c1.relIndex] :=
    List.getElem?_eq_getElem hlt
  simp only [goConsume, hbyte] at hgo
  have hcons := stateBytes_cons file c1 hlt
  have hp2 : position { c1 with relIndex := c1.relIndex + 1 } = position c1 + 1 := by
    simp only [position]
    omega
  have hpend : (c1.buffer.drop start1).take (c1.relIndex + 1 - start1)
      = (c1.buffer.drop start1).take (c1.relIndex - start1)
          ++ [c1.buffer[c1.relIndex]] := by
    rw [(by omega : c1.relIndex + 1 - start1 = (c1.relIndex - start1) + 1),
      List.take_succ, List.getElem?_drop,
      (by omega : start1 + (c1.relIndex - start1) = c1.relIndex), hbyte]
    rfl
  by_cases hdone :
      (pred (some c1.buffer[c1.relIndex]) (position c1)
        || EOF { c1 with relIndex := c1.relIndex + 1 }) = true
  · rw [if_pos hdone] at hgo
    cases hgo
    refine ⟨1, false, ?_, ?_, ?_, ?_, ?_, ?_, ?_, ?_, ?_, ?_⟩
    · rw [hcons, List.length_cons]
      omega
    · show acc1 ++ (c1.buffer.drop start1).take (c1.relIndex + 1 - start1) = _
      rw [hpend, hcons, List.take_succ_cons, List.take_zero]
      simp [List.append_assoc]
    · show tr ++ [(some c1.buffer[c1.relIndex], position c1)] = _
      rw [hcons, List.take_succ_cons, List.take_zero]
      simp [callsOf]
    · intro hf; exact absurd hf (by simp)
    · intro _
      show c1.relIndex + 1 ≤ c1.buffer.length
      omega
    · rw [hp2]
      simp
    · exact inv_bump file c1 hInv hlt
    · rw [hcons, List.drop_succ_cons, List.drop_zero]
    · intro _
      rw [Bool.or_eq_true] at hdone
      rcases hdone with hp | he
      · refine Or.inr ⟨Nat.le_refl 1, c1.buffer[c1.relIndex], ?_, ?_⟩
        · rw [hcons]
          simp
        · simpa using hp
      · exact Or.inl he
    · intro j hj
      omega
  · rw [if_neg hdone] at hgo
    simp only [Bool.or_eq_true, not_or, Bool.not_eq_true] at hdone
    obtain ⟨hpredf, heoff⟩ := hdone
    have hih := ih { c1 with relIndex := c1.relIndex + 1 } start1 acc1
      (tr ++ [(some c1.buffer[c1.relIndex], position c1)]) fs1 run
      (inv_bump file c1 hInv hlt) heoff
      (by show c1.relIndex + 1 ≤ c1.buffer.length; omega)
      (by show start1 ≤ c1.relIndex + 1; omega) hgo
    obtain ⟨k', ph, h1, h2, h3, h4, h5, h6, h7, h8, h9, h10⟩ := hih
    rw [hp2] at h3 h6
    refine ⟨k' + 1, ph, ?_, ?_, ?_, ?_, h5, ?_, h7, ?_, ?_, ?_⟩
    · rw [hcons, List.length_cons]
      omega
    · rw [h2, hpend, hcons, List.take_succ_cons]
      simp [List.append_assoc]
    · rw [h3, hcons, List.take_succ_cons]
      show _ = tr ++ ((some c1.buffer[c1.relIndex], position c1)
          :: callsOf ((stateBytes file { c1 with relIndex := c1.relIndex + 1 }).take k')
            (position c1 + 1)) ++ _
      rw [(by omega : position c1 + 1 + k' = position c1 + (k' + 1))]
      simp [List.append_assoc]
    · intro hph
      obtain ⟨hk, hb, hr, he⟩ := h4 hph
      refine ⟨?_, hb, hr, he⟩
      rw [hcons, List.length_cons]
      omega
    · rw [h6]
      omega
    · rw [h8, hcons, List.drop_succ_cons]
    · intro hph
      rcases h9 hph with he | ⟨hk1, b', hb', hp'⟩
      · exact Or.inl he
      · refine Or.inr ⟨by omega, b', ?_, ?_⟩
        · rw [hcons,
            (by omega : k' + 1 - 1 = (k' - 1) + 1), List.getElem?_cons_succ]
          exact hb'
        · rw [(by omega : position c1 + (k' + 1 - 1) = position c1 + 1 + (k' - 1))]
          exact hp'
    · intro j hj
      match j with
      | 0 =>
        refine ⟨c1.buffer[c1.relIndex], ?_, ?_⟩
        · rw [hcons]
          simp
        · simpa using hpredf
      | j' + 1 =>
        obtain ⟨b', hb', hp'⟩ := h10 j' (by omega)
        refine ⟨b', ?_, ?_⟩
        · rw [hcons, List.getElem?_cons_succ]
          exact hb'
        · rw [(by omega : position c1 + (j' + 1) = position c1 + 1 + j')]
          exact hp'

/-- Master specification of the `seekUntil` loop: every terminating run
satisfies `GoSpec`. -/
theorem seekUntilGo_spec (file : List Nat) (pred : Option Nat → Nat → Bool) :
    ∀ (fuel : Nat) (c : Cursor) (start : Nat) (acc : List Nat)
      (tr : List (Option Nat × Nat)) (fs : List (Nat × Nat)) (run : Run),
      Inv file c → EOF c = false → c.relIndex ≤ c.buffer.length →
      start ≤ c.relIndex →
      seekUntilGo file pred fuel c start acc tr fs = some run →
      GoSpec file pred c start acc tr run := by
  intro fuel
  induction fuel with
  | zero =>
    intro c start acc tr fs run _ _ _ _ hgo
    exact absurd hgo (by simp [seekUntilGo])
  | succ fuel ih =>
    intro c start acc tr fs run hInv hEOF hrle hst hgo
    rw [seekUntilGo_succ] at hgo
    by_cases hEOB : EOB c = true
    · -- the cache is exhausted: refill first
      rw [if_pos hEOB] at hgo
      have hrel : c.relIndex = c.buffer.length := by
        simp only [EOB, decide_eq_true_eq] at hEOB
        omega
      have hef : c.eofReached = false := by
        simp only [EOF, hEOB, Bool.and_true] at hEOF
        exact hEOF
      have hbs : 0 < c.bufferSize := hInv.2.2.1
      have hmiss : ¬(c.absIndex ≤ c.absIndex + c.buffer.length
          ∧ c.absIndex + c.buffer.length < c.absIndex + c.buffer.length) := by
        omega
      have hsbc : stateBytes file c
          = winBytes file c.startFrom c.endAt (c.absIndex + c.buffer.length) := by
        simp only [stateBytes, hef, Bool.false_eq_true, if_false]
        rw [hrel, List.drop_length, List.nil_append]
      have hsb1 : stateBytes file (set file c (c.absIndex + c.buffer.length)).1
          = stateBytes file c := by
        rw [set_stateBytes_miss file c _ hmiss hbs, hsbc]
      have hInv1 := set_inv file c (c.absIndex + c.buffer.length) hInv
      have hbase := set_miss_base file c (c.absIndex + c.buffer.length) hmiss
      have hpos1 : position (set file c (c.absIndex + c.buffer.length)).1
          = position c := by
        rw [set_position]
        simp only [position, hrel]
      have hflush : c.buffer.drop start
          = (c.buffer.drop start).take (c.relIndex - start) := by
        rw [List.take_of_length_le]
        rw [List.length_drop]
        omega
      by_cases hw : winBytes file c.startFrom c.endAt
          (c.absIndex + c.buffer.length) = []
      · -- the refill comes back empty: phantom predicate call, then stop
        have hone := set_miss_empty file c (c.absIndex + c.buffer.length)
          hmiss hbs hw
        simp only [hone] at hgo
        have hstep : goConsume file pred fuel
            { startFrom := c.startFrom, endAt := c.endAt,
              bufferSize := c.bufferSize,
              absIndex := c.absIndex + c.buffer.length, relIndex := 0,
              buffer := [], eofReached := true }
            0 (acc ++ c.buffer.drop start) tr
            (fs ++ (set file c (c.absIndex + c.buffer.length)).2.toList)
          = some ⟨acc ++ c.buffer.drop start,
              { startFrom := c.startFrom, endAt := c.endAt,
                bufferSize := c.bufferSize,
                absIndex := c.absIndex + c.buffer.length, relIndex := 1,
                buffer := [], eofReached := true },
              tr ++ [(none, c.absIndex + c.buffer.length)],
              fs ++ (set file c (c.absIndex + c.buffer.length)).2.toList⟩ := by
          simp [goConsume, EOF, EOB, position]
        rw [hstep] at hgo
        cases hgo
        have hpc : position c = c.absIndex + c.buffer.length := by
          simp only [position]
          omega
        refine ⟨0, true, Nat.zero_le _, ?_, ?_, ?_, ?_, ?_, ?_, ?_, ?_, ?_⟩
        · show acc ++ c.buffer.drop start = _
          rw [List.take_zero, List.append_nil]
          conv_lhs => rw [hflush]
        · show tr ++ [(none, c.absIndex + c.buffer.length)] = _
          rw [List.take_zero, if_pos rfl, hpc]
          simp [callsOf]
        · intro _
          refine ⟨?_, rfl, rfl, rfl⟩
          rw [hsbc, hw]
          rfl
        · intro hf; exact absurd hf (by simp)
        · show c.absIndex + c.buffer.length + 1 = position c + 0 + 1
          rw [hpc]
        · refine ⟨by simp, Or.inr ⟨rfl, rfl, rfl⟩, hbs, ?_, ?_, ?_⟩
          · intro e he hne; exact absurd rfl hne
          · intro _
            show winBytes file c.startFrom c.endAt
                (c.absIndex + c.buffer.length + List.length []) = []
            simpa using hw
          · intro e he hf hne; exact absurd rfl hne
        · show stateBytes file _ = (stateBytes file c).drop 0
          rw [List.drop_zero, hsbc, hw]
          simp [stateBytes]
        · intro hf; exact absurd hf (by simp)
        · intro j hj; omega
      · -- the refill brought bytes: consume as usual
        have hb1 : (set file c (c.absIndex + c.buffer.length)).1.buffer ≠ [] := by
          intro hbnil
          have hefr := set_empty_eof file c (c.absIndex + c.buffer.length)
            hmiss hbs hbnil
          have hsbe : stateBytes file
              (set file c (c.absIndex + c.buffer.length)).1 = [] := by
            simp [stateBytes, hbnil, hefr]
          rw [hsb1, hsbc] at hsbe
          exact hw hsbe
        have hlt1 : (set file c (c.absIndex + c.buffer.length)).1.relIndex
            < (set file c (c.absIndex + c.buffer.length)).1.buffer.length := by
          rw [hbase.2.1]
          exact List.length_pos.mpr hb1
        have hres := goConsume_spec file pred fuel ih
          (set file c (c.absIndex + c.buffer.length)).1
          (set file c (c.absIndex + c.buffer.length)).1.relIndex
          (acc ++ c.buffer.drop start) tr
          (fs ++ (set file c (c.absIndex + c.buffer.length)).2.toList) run
          hInv1 hlt1 (Nat.le_refl _) hgo
        obtain ⟨k, ph, g1, g2, g3, g4, g5, g6, g7, g8, g9, g10⟩ := hres
        rw [hsb1] at g1 g2 g3 g4 g8 g9 g10
        rw [hpos1] at g3 g6 g9 g10
        rw [Nat.sub_self, List.take_zero, List.append_nil] at g2
        refine ⟨k, ph, g1, ?_, g3, g4, g5, g6, g7, g8, g9, g10⟩
        rw [g2]
        conv_lhs => rw [hflush]
    · -- cache not exhausted: consume directly
      rw [if_neg hEOB] at hgo
      have hlt : c.relIndex < c.buffer.length := by
        simp only [EOB, decide_eq_true_eq] at hEOB
        omega
      exact goConsume_spec file pred fuel ih c start acc tr fs run hInv hlt hst hgo

/-- In a coherent state whose EOF flag is clear, the cache cursor is in
bounds. -/
theorem relIndex_le_of_not_eof (file : List Nat) (c : Cursor)
    (hInv : Inv file c) (hEOF : EOF c = false) :
    c.relIndex ≤ c.buffer.length := by
  rcases hInv.2.1 with h' | ⟨hb, hr, he⟩
  · exact h'
  · exfalso
    have : EOF c = true := by
      simp [EOF, EOB, he, hb, hr]
    rw [this] at hEOF
    exact absurd hEOF (by simp)

/-- When a mid-scan cache refill comes back empty (end-of-data reached at
the refill position), the `seekUntil` loop invokes the predicate one final
time with an `undefined` byte (`none`) at the end-of-data position, then
terminates, returning the bytes consumed so far; the final cursor
overshoots the consumed bytes by one. -/
theorem seekUntil_phantom (file : List Nat) (pred : Option Nat → Nat → Bool)
    (fuel : Nat) (c : Cursor) (start : Nat) (acc : List Nat)
    (tr : List (Option Nat × Nat)) (fs : List (Nat × Nat))
    (hbs : 0 < c.bufferSize)
    (hEOB : EOB c = true)
    (hw : winBytes file c.startFrom c.endAt (c.absIndex + c.buffer.length) = []) :
    seekUntilGo file pred (fuel+1) c start acc tr fs
      = some ⟨acc ++ c.buffer.drop start,
          { c with
              absIndex := c.absIndex + c.buffer.length
              relIndex := 1
              buffer := []
              eofReached := true },
          tr ++ [(none, c.absIndex + c.buffer.length)],
          fs ++ (set file c (c.absIndex + c.buffer.length)).2.toList⟩ := by
  rw [seekUntilGo_succ, if_pos hEOB]
  have hmiss : ¬(c.absIndex ≤ c.absIndex + c.buffer.length
      ∧ c.absIndex + c.buffer.length < c.absIndex + c.buffer.length) := by
    omega
  have hone := set_miss_empty file c (c.absIndex + c.buffer.length) hmiss hbs hw
  simp only [hone]
  simp [goConsume, EOF, EOB, position]

/-- `seekUntil` with an always-true predicate runs exactly like `seek 1`:
the two predicates agree on the single call either can make. -/
theorem seekUntil_true_eq_seek_one (file : List Nat) (fuel : Nat) (c : Cursor)
    (hInv : Inv file c) (hfuel : 0 < fuel) :
    seekUntil file fuel c (fun _ _ => true) = seek file fuel c 1 := by
  unfold seek
  rw [if_neg (by omega : ¬ (1 : Nat) = 0)]
  unfold seekUntil
  by_cases hEOF : EOF c = true
  · rw [if_pos hEOF, if_pos hEOF]
  · have hEOF' : EOF c = false := by simpa using hEOF
    rw [if_neg hEOF, if_neg hEOF]
    have hrle := relIndex_le_of_not_eof file c hInv hEOF'
    obtain ⟨fuel', rfl⟩ : ∃ f, fuel = f + 1 := ⟨fuel - 1, by omega⟩
    rw [seekUntilGo_succ, seekUntilGo_succ]
    by_cases hEOB : EOB c = true
    · rw [if_pos hEOB, if_pos hEOB]
      have hrel : c.relIndex = c.buffer.length := by
        simp only [EOB, decide_eq_true_eq] at hEOB
        omega
      have hd2 : decide
          (position (set file c (c.absIndex + c.buffer.length)).1
            = position c + 1 - 1) = true := by
        rw [set_position]
        simp only [decide_eq_true_eq, position, hrel]
        omega
      simp only [goConsume, hd2, Bool.true_or]
      rw [if_pos trivial, if_pos trivial]
    · rw [if_neg hEOB, if_neg hEOB]
      have hd2 : decide (position c = position c + 1 - 1) = true := by
        simp only [decide_eq_true_eq]
        omega
      simp only [goConsume, hd2, Bool.true_or]
      rw [if_pos trivial, if_pos trivial]

/-- `seekUntil` on a cursor whose EOF flag is set returns an empty result
without invoking the predicate and without touching the state. -/
theorem seekUntil_eof (file : List Nat) (fuel : Nat) (c : Cursor)
    (pred : Option Nat → Nat → Bool) (h : EOF c = true) :
    seekUntil file fuel c pred = some ⟨[], c, [], []⟩ := by
  simp [seekUntil, h]

/-- From a coherent non-EOF state, a terminating `seekUntil` consumes the
next `k` deliverable bytes, invoking the predicate on each byte at its
position (plus possibly one final phantom call on `none`). -/
theorem seekUntil_spec (file : List Nat) (fuel : Nat) (c : Cursor)
    (pred : Option Nat → Nat → Bool) (run : Run)
    (hInv : Inv file c) (hEOF : EOF c = false)
    (h : seekUntil file fuel c pred = some run) :
    ∃ k ph,
      k ≤ remaining file c
      ∧ run.bytes = (stateBytes file c).take k
      ∧ run.calls = callsOf ((stateBytes file c).take k) (position c)
          ++ (if ph = true then [(none, position c + k)] else [])
      ∧ (ph = true → k = remaining file c ∧ run.cur.buffer = []
          ∧ run.cur.relIndex = 1 ∧ run.cur.eofReached = true)
      ∧ (ph = false → run.cur.relIndex ≤ run.cur.buffer.length)
      ∧ position run.cur = position c + k + (if ph = true then 1 else 0)
      ∧ Inv file run.cur
      ∧ stateBytes file run.cur = (stateBytes file c).drop k
      ∧ (ph = false → (EOF run.cur = true
          ∨ (1 ≤ k ∧ ∃ b, (stateBytes file c)[k-1]? = some b
              ∧ pred (some b) (position c + (k-1)) = true)))
      ∧ (∀ j, j + 1 < k → ∃ b, (stateBytes file c)[j]? = some b
          ∧ pred (some b) (position c + j) = false) := by
  unfold seekUntil at h
  rw [if_neg (by simp [hEOF])] at h
  have hrle : c.relIndex ≤ c.buffer.length := by
    rcases hInv.2.1 with h' | ⟨hb, hr, he⟩
    · exact h'
    · exfalso
      have : EOF c = true := by
        simp [EOF, EOB, he, hb, hr]
      rw [this] at hEOF
      exact absurd hEOF (by simp)
  have hspec := seekUntilGo_spec file pred fuel c c.relIndex [] [] [] run
    hInv hEOF hrle (Nat.le_refl _) h
  obtain ⟨k, ph, g1, g2, g3, g4, g5, g6, g7, g8, g9, g10⟩ := hspec
  rw [Nat.sub_self, List.take_zero, List.append_nil, List.nil_append] at g2
  rw [List.nil_append] at g3
  exact ⟨k, ph, g1, g2, g3, g4, g5, g6, g7, g8, g9, g10⟩

/-- Specification of V2 `seek`: a terminating run returns exactly the next
`min n (remaining)` deliverable bytes; the position advances by that count,
except that discovering end-of-data at an empty cache refill overshoots it
by one.  A short result implies the EOF flag is set afterwards. -/
theorem seek_spec (file : List Nat) (fuel : Nat) (c : Cursor) (n : Nat)
    (run : Run) (hInv : Inv file c)
    (h : seek file fuel c n = some run) :
    run.bytes = (stateBytes file c).take (min n (remaining file c))
    ∧ run.bytes.length = min n (remaining file c)
    ∧ run.bytes.length ≤ n
    ∧ (n = 0 → run = ⟨[], c, [], []⟩)
    ∧ (EOF c = true → run.bytes = [])
    ∧ position c + run.bytes.length ≤ position run.cur
    ∧ position run.cur ≤ position c + run.bytes.length + 1
    ∧ (run.cur.relIndex ≤ run.cur.buffer.length →
        position run.cur = position c + run.bytes.length)
    ∧ (run.bytes.length < n → EOF run.cur = true)
    ∧ Inv file run.cur
    ∧ run.cur.relIndex ≤ run.cur.buffer.length + 1
    ∧ (run.cur.buffer.length < run.cur.relIndex →
        run.cur.buffer = [] ∧ run.cur.relIndex = 1
          ∧ run.cur.eofReached = true) := by
  have hrle1 : c.relIndex ≤ c.buffer.length + 1 := by
    rcases hInv.2.1 with h' | ⟨_, hr, _⟩
    · omega
    · omega
  by_cases hn : n = 0
  · subst hn
    unfold seek at h
    rw [if_pos rfl] at h
    cases h
    refine ⟨?_, ?_, ?_, fun _ => rfl, fun _ => rfl, ?_, ?_, ?_, ?_, hInv, ?_, ?_⟩
    · show ([] : List Nat) = (stateBytes file c).take (min 0 (remaining file c))
      simp
    · show ([] : List Nat).length = min 0 (remaining file c)
      simp
    · show ([] : List Nat).length ≤ 0
      simp
    · show position c + ([] : List Nat).length ≤ position c
      simp
    · show position c ≤ position c + ([] : List Nat).length + 1
      simp
    · intro _
      show position c = position c + ([] : List Nat).length
      simp
    · intro hs
      exact absurd hs (by simp)
    · show c.relIndex ≤ c.buffer.length + 1
      exact hrle1
    · intro hov
      rcases hInv.2.1 with h' | ⟨hb, hr, he⟩
      · exfalso
        revert hov
        show ¬ (c.buffer.length < c.relIndex)
        omega
      · exact ⟨hb, hr, he⟩
  · unfold seek at h
    rw [if_neg hn] at h
    by_cases hEOF : EOF c = true
    · rw [seekUntil_eof file fuel c _ hEOF] at h
      cases h
      have hrem : remaining file c = 0 := by
        unfold remaining
        rw [stateBytes_of_eof file c hEOF]
        rfl
      refine ⟨?_, ?_, ?_, fun h0 => absurd h0 hn, fun _ => rfl,
        ?_, ?_, ?_, ?_, hInv, ?_, ?_⟩
      · show ([] : List Nat) = (stateBytes file c).take (min n (remaining file c))
        rw [hrem]
        simp
      · show ([] : List Nat).length = min n (remaining file c)
        rw [hrem]
        simp
      · show ([] : List Nat).length ≤ n
        simp
      · show position c + ([] : List Nat).length ≤ position c
        simp
      · show position c ≤ position c + ([] : List Nat).length + 1
        simp
      · intro _
        show position c = position c + ([] : List Nat).length
        simp
      · intro _
        exact hEOF
      · show c.relIndex ≤ c.buffer.length + 1
        exact hrle1
      · intro hov
        rcases hInv.2.1 with h' | ⟨hb, hr, he⟩
        · exfalso
          revert hov
          show ¬ (c.buffer.length < c.relIndex)
          omega
        · exact ⟨hb, hr, he⟩
    · have hEOF' : EOF c = false := by simpa using hEOF
      obtain ⟨k, ph, g1, g2, g3, g4, g5, g6, g7, g8, g9, g10⟩ :=
        seekUntil_spec file fuel c _ run hInv hEOF' h
      have hn1 : 1 ≤ n := by omega
      -- the request-specific predicate fires exactly at the last byte index
      have hkn : k ≤ n := by
        by_contra hgt
        obtain ⟨b, _, hp⟩ := g10 (n - 1) (by omega)
        rw [(by omega : position c + (n - 1) = position c + n - 1)] at hp
        simp at hp
      have hmin : k = min n (remaining file c) := by
        rcases Nat.lt_or_ge k n with hlt | hge
        · -- k < n: the run must have consumed everything available
          rcases Nat.lt_or_ge k (remaining file c) with hltA | hgeA
          · exfalso
            have hphf : ph = false := by
              cases ph
              · rfl
              · exact absurd ((g4 rfl).1) (by omega)
            rcases g9 hphf with he | ⟨hk1, b, _, hp⟩
            · have := stateBytes_of_eof file run.cur he
              rw [g8] at this
              have hlen := congrArg List.length this
              rw [List.length_drop] at hlen
              unfold remaining at hltA
              simp at hlen
              omega
            · rw [(by omega : position c + (k - 1) = position c + k - 1)] at hp
              simp only [decide_eq_true_eq] at hp
              omega
          · omega
        · omega
      have hlen : run.bytes.length = min n (remaining file c) := by
        rw [g2, List.length_take]
        unfold remaining at hmin ⊢
        omega
      refine ⟨by rw [g2, hmin], hlen, by omega, fun h0 => absurd h0 hn,
        fun he => absurd he (by simp [hEOF']), ?_, ?_, ?_, ?_, g7, ?_, ?_⟩
      · rw [hlen, ← hmin, g6]
        omega
      · rw [hlen, ← hmin, g6]
        cases ph <;> simp
      · intro hle
        have hphf : ph = false := by
          cases ph
          · rfl
          · obtain ⟨_, hb, hr, _⟩ := g4 rfl
            rw [hb, hr] at hle
            exact absurd hle (by simp)
        rw [hlen, ← hmin, g6, hphf]
        simp
      · intro hshort
        rw [hlen] at hshort
        have hkA : k = remaining file c := by omega
        cases hph : ph
        · rcases g9 hph with he | ⟨hk1, b, _, hp⟩
          · exact he
          · exfalso
            rw [(by omega : position c + (k - 1) = position c + k - 1)] at hp
            simp only [decide_eq_true_eq] at hp
            omega
        · obtain ⟨_, hb, hr, he⟩ := g4 hph
          simp [EOF, EOB, hb, hr, he]
      · cases hph : ph
        · have := g5 hph
          omega
        · obtain ⟨_, hb, hr, _⟩ := g4 hph
          rw [hb, hr]
          simp
      · intro hov
        cases hph : ph
        · have := g5 hph
          omega
        · exact g4 hph |>.2

/-- Specification of V2 `read`: it fails with `Truncated (EOF)` exactly
when fewer than `n` bytes are deliverable from the current state, and
`read 0` always succeeds without touching the cursor. -/
theorem read_spec (file : List Nat) (fuel : Nat) (c : Cursor) (n : Nat)
    (out : Except String (List Nat)) (c' : Cursor) (hInv : Inv file c)
    (h : read file fuel c n = some (out, c')) :
    ((∃ s, out = .error s) ↔ remaining file c < n)
    ∧ (n = 0 → out = .ok [] ∧ c' = c)
    ∧ (∀ bs, out = .ok bs → bs = (stateBytes file c).take n ∧ bs.length = n)
    ∧ position c + min n (remaining file c) ≤ position c'
    ∧ position c' ≤ position c + min n (remaining file c) + 1 := by
  unfold read at h
  rcases hseek : seek file fuel c n with _ | run
  · rw [hseek] at h
    exact absurd h (by simp)
  · rw [hseek] at h
    simp only [Option.map_some', Option.some.injEq, Prod.mk.injEq] at h
    obtain ⟨hout, hcur⟩ := h
    obtain ⟨s1, s2, s3, s4, s5, s6, s7, s8, s9, s10, s11, s12⟩ :=
      seek_spec file fuel c n run hInv hseek
    constructor
    · constructor
      · intro ⟨s, hs⟩
        rw [← hout] at hs
        by_cases hc : run.bytes.length < n
        · omega
        · rw [if_neg hc] at hs
          exact absurd hs (by simp)
      · intro hlt
        refine ⟨"Truncated (EOF)", ?_⟩
        rw [← hout, if_pos (by omega)]
    · constructor
      · intro h0
        subst h0
        have := s4 rfl
        subst this
        constructor
        · rw [← hout]
          simp
        · rw [← hcur]
      · refine ⟨?_, ?_, ?_⟩
        · intro bs hbs
          rw [← hout] at hbs
          by_cases hc : run.bytes.length < n
          · rw [if_pos hc] at hbs
            exact absurd hbs (by simp)
          · rw [if_neg hc] at hbs
            simp only [Except.ok.injEq] at hbs
            have hfull : min n (remaining file c) = n := by omega
            subst hbs
            refine ⟨?_, by omega⟩
            rw [s1, hfull]
        · rw [← hcur]
          omega
        · rw [← hcur]
          omega

/-- A successfully constructed V2 cursor satisfies the invariant for any
file, sits at position 0, and reads `EOF = false`. -/
theorem mkCursor_ok (o : Options) (c : Cursor) (file : List Nat)
    (h : mkCursor o = .ok c) :
    Inv file c ∧ position c = 0 ∧ EOF c = false ∧ c.buffer = []
    ∧ c.eofReached = false := by
  unfold mkCursor at h
  split_ifs at h with hsrc hbs hsf
  split at h
  · simp only [Except.ok.injEq] at h
    subst h
    refine ⟨⟨by simp, Or.inl (Nat.le_refl 0), by show 0 < Int.toNat _; omega,
      ?_, ?_, ?_⟩, rfl, by simp [EOF], rfl, rfl⟩
    · intro e he hne; exact absurd rfl hne
    · intro hf; exact absurd hf (by simp)
    · intro e he hef hne; exact absurd rfl hne
  · split_ifs at h with hlt
    simp only [Except.ok.injEq] at h
    subst h
    refine ⟨⟨by simp, Or.inl (Nat.le_refl 0), by show 0 < Int.toNat _; omega,
      ?_, ?_, ?_⟩, rfl, by simp [EOF], rfl, rfl⟩
    · intro b hb hne; exact absurd rfl hne
    · intro hf; exact absurd hf (by simp)
    · intro b hb hef hne; exact absurd rfl hne

/-- A fresh V2 cursor with an unbounded window, as produced by the
constructor with defaults apart from `bufferSize`. -/
def c0 (bs : Nat) : Cursor :=
  { startFrom := 0, endAt := none, bufferSize := bs, absIndex := 0,
    relIndex := 0, buffer := [], eofReached := false }

theorem c0_inv (file : List Nat) (bs : Nat) (h : 0 < bs) : Inv file (c0 bs) :=
  ⟨rfl, Or.inl (Nat.le_refl 0), h, fun _ he => absurd he (by simp [c0]),
   fun hf => absurd hf (by simp [c0]), fun _ he => absurd he (by simp [c0])⟩

end V2

/-- A fresh V1 cursor at position 0, as produced by the constructor with
defaults apart from `bufferSize`. -/
def V1.c0 (bs : Nat) : V1.Cursor :=
  { bufferSize := bs, buffer := [], index := 0, pos := 0, eofFlag := false }

theorem V1.c0_inv1 (file : List Nat) (bs : Nat) (h : 0 < bs) :
    V1.Inv file (V1.c0 bs) :=
  ⟨rfl, Nat.le_refl 0, fun hf => absurd hf (by simp [V1.c0]), h⟩

end FileCursor

namespace FileCursor

/-! ## Claims -/

/-- C1 (counterexample).  The claim states that `seek(length)` advances the
position by exactly the number of bytes returned.  The V2 `seek` violates
this: on an empty source, `seek 1` from position 0 returns no bytes yet
leaves the cursor at position 1. -/
theorem C1_counterexample :
    (V2.seek [] 10 (V2.c0 2) 1).map
        (fun r => (r.bytes.length, V2.position r.cur)) = some (0, 1)
    ∧ V2.position (V2.c0 2) = 0
    ∧ ¬ ((1 : Nat) = 0 + 0) := by
  refine ⟨by decide, rfl, by decide⟩

/-- C1 (amended).  V1's `seek` satisfies the full contract: it returns the
next `min n (bytes left)` bytes of the file, advances the position by
exactly the returned length, never returns more than `n` bytes, returns
fewer than `n` only when `eof` ends up set, and returns an empty result for
`n = 0` or when `eof` is already set.  V2's `seek` satisfies the same
contract except for position advancement: the position advances by the
returned length, or by one more when end-of-data is discovered at an empty
cache refill (in which case the cache cursor overshoots its buffer). -/
theorem C1_seek_contract :
    (∀ (file : List Nat) (c : V1.Cursor) (n : Nat), V1.Inv file c →
      (V1.seek file c n).1
          = (file.drop (V1.position c)).take
              (min n (file.length - V1.position c))
      ∧ V1.position (V1.seek file c n).2.1
          = V1.position c + (V1.seek file c n).1.length
      ∧ (V1.seek file c n).1.length ≤ n
      ∧ ((V1.seek file c n).1.length < n → V1.eof (V1.seek file c n).2.1 = true)
      ∧ (V1.eof c = true → (V1.seek file c n).1 = [])
      ∧ (n = 0 → (V1.seek file c n).1 = []))
    ∧ (∀ (file : List Nat) (fuel : Nat) (c : V2.Cursor) (n : Nat) (run : V2.Run),
        V2.Inv file c → V2.seek file fuel c n = some run →
      run.bytes = (V2.stateBytes file c).take (min n (V2.remaining file c))
      ∧ run.bytes.length ≤ n
      ∧ (V2.EOF c = true → run.bytes = [])
      ∧ (n = 0 → run.bytes = [] ∧ run.cur = c)
      ∧ V2.position c + run.bytes.length ≤ V2.position run.cur
      ∧ V2.position run.cur ≤ V2.position c + run.bytes.length + 1
      ∧ (run.cur.relIndex ≤ run.cur.buffer.length →
          V2.position run.cur = V2.position c + run.bytes.length)
      ∧ (run.bytes.length < n → V2.EOF run.cur = true)) := by
  constructor
  · intro file c n hInv
    obtain ⟨s1, s2, s3, s4, s5, s6, _⟩ := V1.seek_spec1 file c n hInv
    exact ⟨s1, s2, s3, s4, s5, fun h0 => (s6 h0).1⟩
  · intro file fuel c n run hInv h
    obtain ⟨s1, s2, s3, s4, s5, s6, s7, s8, s9, _, _, _⟩ :=
      V2.seek_spec file fuel c n run hInv h
    refine ⟨s1, s3, s5, ?_, s6, s7, s8, s9⟩
    intro h0
    rw [s4 h0]
    exact ⟨rfl, rfl⟩

/-- C1 (witness). -/
theorem C1_seek_contract_witness :
    V1.Inv [3, 4, 5] (V1.c0 2)
    ∧ (V1.seek [3, 4, 5] (V1.c0 2) 2).1
        = ([3, 4, 5].drop (V1.position (V1.c0 2))).take
            (min 2 ([3, 4, 5].length - V1.position (V1.c0 2)))
    ∧ V2.Inv [3, 4, 5] (V2.c0 2)
    ∧ (∀ run : V2.Run, V2.seek [3, 4, 5] 10 (V2.c0 2) 2 = some run →
        run.bytes = (V2.stateBytes [3, 4, 5] (V2.c0 2)).take
          (min 2 (V2.remaining [3, 4, 5] (V2.c0 2)))) := by
  have h1 : V1.Inv [3, 4, 5] (V1.c0 2) := V1.c0_inv1 [3, 4, 5] 2 (by decide)
  have h2 : V2.Inv [3, 4, 5] (V2.c0 2) := V2.c0_inv [3, 4, 5] 2 (by decide)
  exact ⟨h1, (C1_seek_contract.1 [3, 4, 5] (V1.c0 2) 2 h1).1, h2,
    fun run hrun => (C1_seek_contract.2 [3, 4, 5] 10 (V2.c0 2) 2 run h2 hrun).1⟩

/-- C2 (counterexample).  The claim states that every `seek` invocation
performs at most one underlying read.  The V2 `seek` violates this: with a
1-byte chunk size, `seek 2` on a 2-byte source performs two fetches. -/
theorem C2_counterexample :
    (V2.seek [5, 6] 10 (V2.c0 1) 2).map V2.Run.fetches = some [(1, 0), (1, 1)]
    ∧ ¬ ([(1, 0), (1, 1)] : List (Nat × Nat)).length ≤ 1 := by
  refine ⟨by decide, by decide⟩

/-- C2 (amended).  V1's `seek` performs at most one fetch (visible in its
result type), sized exactly `max(bufferSize, remaining)` and starting at
the absolute position reached after the cached head, and fetches exactly
when the request is nonzero, the cache cannot satisfy it and `eof` is not
flagged.  V2's `seek` instead performs one fetch per cache refill — sized
`bufferSize` (window-clipped), not `max` — and can therefore perform
several fetches in one invocation. -/
theorem C2_fetch_discipline :
    (∀ (file : List Nat) (c : V1.Cursor) (n : Nat) (q : Nat × Nat),
      (V1.seek file c n).2.2 = some q →
      q = (max c.bufferSize (n - min (c.buffer.length - c.index) n),
           V1.position c + min (c.buffer.length - c.index) n))
    ∧ (∀ (file : List Nat) (c : V1.Cursor) (n : Nat),
        (V1.seek file c n).2.2 ≠ none
          ↔ (n ≠ 0 ∧ min (c.buffer.length - c.index) n < n ∧ c.eofFlag = false))
    ∧ (V2.seek [5, 6, 7] 10 (V2.c0 1) 3).map V2.Run.fetches
        = some [(1, 0), (1, 1), (1, 2)] := by
  exact ⟨V1.seek_fetch, V1.seek_fetch_needed, by decide⟩

/-- C2 (witness). -/
theorem C2_fetch_discipline_witness :
    (V1.seek [1, 2] (V1.c0 4) 1).2.2 = some (4, 0)
    ∧ ((4, 0) : Nat × Nat)
        = (max (V1.c0 4).bufferSize
            (1 - min ((V1.c0 4).buffer.length - (V1.c0 4).index) 1),
           V1.position (V1.c0 4)
             + min ((V1.c0 4).buffer.length - (V1.c0 4).index) 1) := by
  refine ⟨by decide, ?_⟩
  exact C2_fetch_discipline.1 [1, 2] (V1.c0 4) 1 (4, 0) (by decide)

/-- C3 (confirmed).  Starting from any coherent state, consuming the V1
lazy chunk sequence — each step is one `seek(bufferSize)`, ending when a
step yields no bytes or `eof` was already reached — and concatenating the
chunks reproduces exactly the bytes of the source from the current
position to end-of-data. -/
theorem C3_roundtrip (file : List Nat) (fuel : Nat) (c : V1.Cursor)
    (hInv : V1.Inv file c) (hfuel : file.length - V1.position c < fuel) :
    V1.drain file fuel c = some (file.drop (V1.position c)) :=
  V1.drain_spec file fuel c hInv hfuel

/-- C3 (witness). -/
theorem C3_roundtrip_witness :
    V1.Inv [1, 2, 3] (V1.c0 2)
    ∧ (3 : Nat) - V1.position (V1.c0 2) < 4
    ∧ V1.drain [1, 2, 3] 4 (V1.c0 2) = some [1, 2, 3] := by
  have h1 : V1.Inv [1, 2, 3] (V1.c0 2) := V1.c0_inv1 [1, 2, 3] 2 (by decide)
  exact ⟨h1, by decide, C3_roundtrip [1, 2, 3] 4 (V1.c0 2) h1 (by decide)⟩

/-- C4 (counterexample).  The claim states that `end_of_data` is true
exactly when the cursor sits at or beyond the last retrievable byte.  A
freshly constructed V1 cursor over an empty source is at (indeed beyond)
the last retrievable byte, yet `eof` reads false: the flag is discovered
lazily, so the "if" direction fails. -/
theorem C4_counterexample :
    V1.mkCursor ⟨true, some 2, none⟩ = .ok (V1.c0 2)
    ∧ List.length ([] : List Nat) ≤ V1.position (V1.c0 2)
    ∧ V1.eof (V1.c0 2) = false := by
  refine ⟨rfl, by decide, by decide⟩

/-- C4 (amended).  The EOF flag is sound but discovered lazily: whenever it
reads true the cursor is at or beyond the last retrievable byte (in V2, no
window bytes remain at the position), and immediately after any `set` to a
position with further retrievable bytes it reads false — but it may still
read false at or beyond the end until an operation observes the end. -/
theorem C4_eof_flag :
    (∀ (file : List Nat) (c : V1.Cursor), V1.Inv file c →
      V1.eof c = true → file.length ≤ V1.position c)
    ∧ (∀ (c : V1.Cursor) (v : Nat), V1.eof (V1.setPos c v) = false)
    ∧ (∀ (file : List Nat) (c : V2.Cursor), V2.Inv file c →
        V2.EOF c = true →
        V2.winBytes file c.startFrom c.endAt (V2.position c) = [])
    ∧ (∀ (file : List Nat) (c : V2.Cursor) (p : Nat), V2.Inv file c →
        V2.winBytes file c.startFrom c.endAt p ≠ [] →
        V2.EOF (V2.set file c p).1 = false) := by
  refine ⟨?_, V1.setPos_eof, ?_, ?_⟩
  · intro file c hInv he
    obtain ⟨hcoh, hidx, heof, _⟩ := hInv
    simp only [V1.eof, Bool.and_eq_true, decide_eq_true_eq] at he
    have := heof he.1
    show file.length ≤ c.pos + c.index
    omega
  · intro file c hInv he
    exact V2.eof_winBytes_nil file c hInv he
  · intro file c p hInv hw
    exact V2.set_eof_false file c p hInv.2.2.1 hw

/-- C4 (witness). -/
theorem C4_eof_flag_witness :
    V1.Inv [7] (⟨2, [7], 1, 0, true⟩ : V1.Cursor)
    ∧ V1.eof (⟨2, [7], 1, 0, true⟩ : V1.Cursor) = true
    ∧ (1 : Nat) ≤ V1.position (⟨2, [7], 1, 0, true⟩ : V1.Cursor)
    ∧ V1.eof (V1.setPos (V1.c0 2) 5) = false
    ∧ V2.Inv [7, 8] (V2.c0 2)
    ∧ V2.winBytes [7, 8] 0 none 1 ≠ []
    ∧ V2.EOF (V2.set [7, 8] (V2.c0 2) 1).1 = false := by
  have hInv : V1.Inv [7] (⟨2, [7], 1, 0, true⟩ : V1.Cursor) := by
    refine ⟨by decide, by decide, fun _ => by decide, by decide⟩
  have hInv2 : V2.Inv [7, 8] (V2.c0 2) := V2.c0_inv [7, 8] 2 (by decide)
  refine ⟨hInv, by decide, ?_, C4_eof_flag.2.1 (V1.c0 2) 5, hInv2, by decide, ?_⟩
  · exact C4_eof_flag.1 [7] _ hInv (by decide)
  · exact C4_eof_flag.2.2.2 [7, 8] (V2.c0 2) 1 hInv2 (by decide)

/-- C5 (counterexample).  The claim states that `seekUntil` advances the
position exactly past the consumed bytes.  With an always-false predicate
over a 2-byte source, the V2 `seekUntil` consumes 2 bytes but leaves the
cursor at position 3: end-of-data discovered at an empty refill overshoots
by one. -/
theorem C5_counterexample :
    (V2.seekUntil [7, 9] 10 (V2.c0 2) (fun _ _ => false)).map
        (fun r => (r.bytes, V2.position r.cur)) = some ([7, 9], 3)
    ∧ V2.position (V2.c0 2) = 0
    ∧ ¬ ((3 : Nat) = 0 + 2) := by
  refine ⟨by decide, rfl, by decide⟩

/-- C5 (amended).  `seekUntil` consumes deliverable bytes one at a time
from the current position, invoking the predicate on each byte at its
absolute position (plus possibly one final call on an `undefined` byte at
end-of-data), stopping at the first byte on which the predicate returns
true — the predicate returned false on every consumed byte before the
stopping one — or at end-of-data; it returns all consumed bytes and
advances the position past them, overshooting by exactly one when
end-of-data is discovered at an empty cache refill.  If the EOF flag is
already set it returns an empty result without invoking the predicate.
With an always-true predicate it runs exactly like `seek 1`. -/
theorem C5_seekUntil_contract :
    (∀ (file : List Nat) (fuel : Nat) (c : V2.Cursor)
        (pred : Option Nat → Nat → Bool), V2.EOF c = true →
      V2.seekUntil file fuel c pred = some ⟨[], c, [], []⟩)
    ∧ (∀ (file : List Nat) (fuel : Nat) (c : V2.Cursor)
        (pred : Option Nat → Nat → Bool) (run : V2.Run),
        V2.Inv file c → V2.EOF c = false →
        V2.seekUntil file fuel c pred = some run →
        ∃ k ph,
          k ≤ V2.remaining file c
          ∧ run.bytes = (V2.stateBytes file c).take k
          ∧ run.calls = V2.callsOf ((V2.stateBytes file c).take k) (V2.position c)
              ++ (if ph = true then [(none, V2.position c + k)] else [])
          ∧ V2.position run.cur
              = V2.position c + k + (if ph = true then 1 else 0)
          ∧ (ph = true → k = V2.remaining file c)
          ∧ (ph = false → (V2.EOF run.cur = true
              ∨ (1 ≤ k ∧ ∃ b, (V2.stateBytes file c)[k-1]? = some b
                  ∧ pred (some b) (V2.position c + (k-1)) = true)))
          ∧ (∀ j, j + 1 < k → ∃ b, (V2.stateBytes file c)[j]? = some b
              ∧ pred (some b) (V2.position c + j) = false))
    ∧ (∀ (file : List Nat) (fuel : Nat) (c : V2.Cursor), V2.Inv file c →
        0 < fuel →
        V2.seekUntil file fuel c (fun _ _ => true) = V2.seek file fuel c 1) := by
  refine ⟨V2.seekUntil_eof, ?_, V2.seekUntil_true_eq_seek_one⟩
  intro file fuel c pred run hInv hEOF h
  obtain ⟨k, ph, g1, g2, g3, g4, _, g6, _, _, g9, g10⟩ :=
    V2.seekUntil_spec file fuel c pred run hInv hEOF h
  exact ⟨k, ph, g1, g2, g3, g6, fun hp => (g4 hp).1, g9, g10⟩

/-- C5 (witness). -/
theorem C5_seekUntil_contract_witness :
    V2.seekUntil [7] 10 ⟨0, none, 2, 5, 1, [], true⟩ (fun _ _ => false)
      = some ⟨[], ⟨0, none, 2, 5, 1, [], true⟩, [], []⟩
    ∧ V2.Inv [7] (V2.c0 2)
    ∧ (∀ run : V2.Run,
        V2.seekUntil [7] 10 (V2.c0 2) (fun _ _ => true) = some run →
        ∃ k ph, k ≤ V2.remaining [7] (V2.c0 2)
          ∧ run.bytes = (V2.stateBytes [7] (V2.c0 2)).take k
          ∧ V2.position run.cur
              = V2.position (V2.c0 2) + k + (if ph = true then 1 else 0))
    ∧ V2.seekUntil [7] 10 (V2.c0 2) (fun _ _ => true)
        = V2.seek [7] 10 (V2.c0 2) 1 := by
  have hInv : V2.Inv [7] (V2.c0 2) := V2.c0_inv [7] 2 (by decide)
  refine ⟨C5_seekUntil_contract.1 [7] 10 _ _ (by decide), hInv, ?_,
    C5_seekUntil_contract.2.2 [7] 10 (V2.c0 2) hInv (by decide)⟩
  intro run hrun
  obtain ⟨k, ph, g1, g2, _, g4, _, _⟩ :=
    C5_seekUntil_contract.2.1 [7] 10 (V2.c0 2) _ run hInv (by decide) hrun
  exact ⟨k, ph, g1, g2, g4⟩

/-- C6 (counterexample).  The claim states that on a cache miss inside the
window, `set` only invalidates the cache and defers any I/O until bytes
are requested.  The V2 `set` instead fetches immediately: a miss `set` on
a fresh cursor performs an underlying read. -/
theorem C6_counterexample :
    (V2.set [5, 6] (V2.c0 1) 1).2 = some (1, 1)
    ∧ (V2.set [5, 6] (V2.c0 1) 1).2 ≠ none := by
  refine ⟨by decide, by decide⟩

/-- C6 (amended).  V1's setter (which never performs I/O — it does not even
access the source): inside the cache it adjusts only `index` but also
unconditionally clears the EOF flag; outside it clears the cache and moves
the base.  V2's `set`: inside the cache it adjusts only `relIndex` with no
fetch and all other fields unchanged; on a miss at or past `endAt` it
marks EOF with an empty cache and no fetch; on a miss inside the window it
refills the cache immediately with exactly one clipped fetch at the real
target offset.  Setting the position at or beyond the window's logical
length (`endAt + 1 - startFrom`) immediately yields EOF with an empty
cache and no fetch. -/
theorem C6_set_behaviour :
    (∀ (c : V1.Cursor) (v : Nat), c.pos ≤ v → v < c.pos + c.buffer.length →
      V1.setPos c v = { c with eofFlag := false, index := v - c.pos })
    ∧ (∀ (c : V1.Cursor) (v : Nat),
        ¬(c.pos ≤ v ∧ v < c.pos + c.buffer.length) →
        V1.setPos c v
          = { c with eofFlag := false, buffer := [], index := 0, pos := v })
    ∧ (∀ (file : List Nat) (c : V2.Cursor) (p : Nat),
        c.absIndex ≤ p → p < c.absIndex + c.buffer.length →
        V2.set file c p = ({ c with relIndex := p - c.absIndex }, none))
    ∧ (∀ (file : List Nat) (c : V2.Cursor) (p : Nat),
        ¬(c.absIndex ≤ p ∧ p < c.absIndex + c.buffer.length) →
        V2.geEnd c.endAt (c.startFrom + p) = true →
        V2.set file c p
          = ({ c with absIndex := p, relIndex := 0, eofReached := true, buffer := [] }, none))
    ∧ (∀ (file : List Nat) (c : V2.Cursor) (p : Nat),
        ¬(c.absIndex ≤ p ∧ p < c.absIndex + c.buffer.length) →
        V2.geEnd c.endAt (c.startFrom + p) = false →
        (V2.set file c p).2
          = some (V2.allocSize c.endAt (c.startFrom + p) c.bufferSize,
                  c.startFrom + p))
    ∧ (∀ (file : List Nat) (c : V2.Cursor) (p : Nat) (e : Nat),
        c.endAt = some e → V2.Inv file c → e + 1 ≤ c.startFrom + p →
        V2.EOF (V2.set file c p).1 = true
        ∧ (V2.set file c p).2 = none
        ∧ (V2.set file c p).1.buffer = []) := by
  refine ⟨V1.setPos_hit, V1.setPos_miss, V2.set_hit, V2.set_miss_end, ?_, ?_⟩
  · intro file c p hmiss hge
    rw [V2.set_miss_read file c p hmiss hge]
  · intro file c p e he hInv hge
    have hmiss : ¬(c.absIndex ≤ p ∧ p < c.absIndex + c.buffer.length) := by
      intro ⟨h1, h2⟩
      by_cases hb : c.buffer = []
      · rw [hb] at h2
        simp at h2
        omega
      · have := hInv.2.2.2.1 e he hb
        omega
    have hgeEnd : V2.geEnd c.endAt (c.startFrom + p) = true := by
      rw [he]
      simp only [V2.geEnd, decide_eq_true_eq]
      omega
    rw [V2.set_miss_end file c p hmiss hgeEnd]
    exact ⟨by simp [V2.EOF, V2.EOB], rfl, rfl⟩

/-- C6 (witness). -/
theorem C6_set_behaviour_witness :
    V1.setPos (⟨4, [1, 2, 3], 0, 0, true⟩ : V1.Cursor) 2
      = (⟨4, [1, 2, 3], 2, 0, false⟩ : V1.Cursor)
    ∧ V2.set [0, 1, 2, 3, 4, 5]
        (⟨0, some 4, 2, 0, 0, [0, 1], false⟩ : V2.Cursor) 1
      = ((⟨0, some 4, 2, 0, 1, [0, 1], false⟩ : V2.Cursor), none)
    ∧ V2.EOF (V2.set [0, 1, 2, 3, 4, 5]
        (⟨0, some 4, 2, 0, 0, [0, 1], false⟩ : V2.Cursor) 5).1 = true := by
  refine ⟨?_, ?_, ?_⟩
  · have := C6_set_behaviour.1 (⟨4, [1, 2, 3], 0, 0, true⟩ : V1.Cursor) 2
      (by decide) (by decide)
    exact this.trans (by decide)
  · have := C6_set_behaviour.2.2.1 [0, 1, 2, 3, 4, 5]
      (⟨0, some 4, 2, 0, 0, [0, 1], false⟩ : V2.Cursor) 1
      (by decide) (by decide)
    exact this.trans (by decide)
  · have hInv : V2.Inv [0, 1, 2, 3, 4, 5]
        (⟨0, some 4, 2, 0, 0, [0, 1], false⟩ : V2.Cursor) := by
      refine ⟨by decide, Or.inl (by decide), by decide, ?_, ?_, ?_⟩
      · intro e he _
        cases he
        decide
      · intro hf
        exact absurd hf (by decide)
      · intro e he _ _
        cases he
        decide
    exact (C6_set_behaviour.2.2.2.2.2 [0, 1, 2, 3, 4, 5] _ 5 4 rfl hInv
      (by decide)).1

/-- C7 (counterexample).  The claim states that `read` never mutates the
position beyond the bytes actually consumed.  On an empty source, `read 1`
throws Truncated after consuming nothing, yet moves the cursor from
position 0 to position 1. -/
theorem C7_counterexample :
    V2.read [] 10 (V2.c0 2) 1
      = some (Except.error "Truncated (EOF)", ⟨0, none, 2, 0, 1, [], true⟩)
    ∧ V2.position (V2.c0 2) = 0
    ∧ V2.position (⟨0, none, 2, 0, 1, [], true⟩ : V2.Cursor) = 1
    ∧ ¬ ((1 : Nat) ≤ 0 + 0) := by
  refine ⟨rfl, rfl, rfl, by decide⟩

/-- C7 (amended).  `read n` throws Truncated exactly when fewer than `n`
bytes are deliverable from the current state; `read 0` always succeeds
with the cursor untouched; a successful `read n` returns exactly the next
`n` bytes; and the position lands within one byte past the consumed
bytes (the overshoot occurring only when end-of-data is met at an empty
cache refill). -/
theorem C7_read_truncation (file : List Nat) (fuel : Nat) (c : V2.Cursor)
    (n : Nat) (out : Except String (List Nat)) (c' : V2.Cursor)
    (hInv : V2.Inv file c)
    (h : V2.read file fuel c n = some (out, c')) :
    ((∃ s, out = .error s) ↔ V2.remaining file c < n)
    ∧ (n = 0 → out = .ok [] ∧ c' = c)
    ∧ (∀ bs, out = .ok bs →
        bs = (V2.stateBytes file c).take n ∧ bs.length = n)
    ∧ V2.position c + min n (V2.remaining file c) ≤ V2.position c'
    ∧ V2.position c' ≤ V2.position c + min n (V2.remaining file c) + 1 :=
  V2.read_spec file fuel c n out c' hInv h

/-- C7 (witness). -/
theorem C7_read_truncation_witness :
    V2.Inv [1, 2] (V2.c0 1)
    ∧ V2.read [1, 2] 10 (V2.c0 1) 2
        = some (Except.ok [1, 2], ⟨0, none, 1, 1, 1, [2], false⟩)
    ∧ ((∃ s, (Except.ok [1, 2] : Except String (List Nat)) = .error s)
        ↔ V2.remaining [1, 2] (V2.c0 1) < 2) := by
  have hInv : V2.Inv [1, 2] (V2.c0 1) := V2.c0_inv [1, 2] 1 (by decide)
  refine ⟨hInv, rfl, ?_⟩
  exact (C7_read_truncation [1, 2] 10 (V2.c0 1) 2 (Except.ok [1, 2])
    ⟨0, none, 1, 1, 1, [2], false⟩ hInv rfl).1

/-- C8 (counterexample).  The claim states that construction fails for
`bufferSize = 0`.  The V1 constructor computes `options.bufferSize || 16384`,
and `0` is falsy in JavaScript: construction with `bufferSize = 0` silently
succeeds with the default size instead of failing. -/
theorem C8_counterexample :
    V1.mkCursor ⟨true, some 0, none⟩ = .ok (V1.c0 16384)
    ∧ (∀ s, V1.mkCursor ⟨true, some 0, none⟩ ≠ .error s) := by
  refine ⟨rfl, ?_⟩
  intro s h
  rw [show V1.mkCursor ⟨true, some 0, none⟩ = Except.ok (V1.c0 16384) from rfl]
    at h
  exact Except.noConfusion h

/-- C8 (amended).  Construction fails for a missing byte source, and in V2
also for `bufferSize = 0`, negative `startFrom`, and `endAt < startFrom`;
in V1 a `bufferSize` of `0` is falsy and silently replaced by the default
`16384`, so construction succeeds.  Construction with only a source and
defaults succeeds with `position = 0` and `EOF = false`, and every
successfully constructed cursor satisfies the coherence invariant (no
partial object escapes a failed validation). -/
theorem C8_construction :
    (∀ o : V2.Options, o.hasSource = false →
      V2.mkCursor o = .error "Expected file descriptor")
    ∧ (∀ o : V2.Options, o.bufferSize = some 0 →
        ∀ c, V2.mkCursor o ≠ .ok c)
    ∧ (∀ o : V2.Options, o.startFrom.getD 0 < 0 →
        ∀ c, V2.mkCursor o ≠ .ok c)
    ∧ (∀ (o : V2.Options) (e : Int), o.endAt = some (some e) →
        e < o.startFrom.getD 0 → ∀ c, V2.mkCursor o ≠ .ok c)
    ∧ V2.mkCursor ⟨true, none, none, none⟩ = .ok (V2.c0 16384)
    ∧ (∀ (o : V2.Options) (c : V2.Cursor) (file : List Nat),
        V2.mkCursor o = .ok c →
        V2.Inv file c ∧ V2.position c = 0 ∧ V2.EOF c = false)
    ∧ (∀ o : V1.Options, o.hasSource = false →
        V1.mkCursor o = .error "Expected file descriptor")
    ∧ V1.mkCursor ⟨true, none, none⟩ = .ok (V1.c0 16384)
    ∧ V1.mkCursor ⟨true, some 0, none⟩ = .ok (V1.c0 16384)
    ∧ (∀ (o : V1.Options) (c : V1.Cursor) (file : List Nat),
        V1.mkCursor o = .ok c → V1.Inv file c ∧ V1.eof c = false) := by
  refine ⟨?_, ?_, ?_, ?_, rfl, ?_, ?_, rfl, rfl, ?_⟩
  · intro o h
    unfold V2.mkCursor
    rw [if_pos (by simp [h])]
  · intro o hb c h
    unfold V2.mkCursor at h
    rw [hb] at h
    by_cases hs : o.hasSource = true
    · rw [if_neg (by simp [hs])] at h
      rw [if_pos (by decide)] at h
      exact Except.noConfusion h
    · rw [if_pos (by simpa using hs)] at h
      exact Except.noConfusion h
  · intro o hneg c h
    unfold V2.mkCursor at h
    by_cases hs : o.hasSource = true
    · rw [if_neg (by simp [hs])] at h
      by_cases hb : 0 < o.bufferSize.getD 16384
      · rw [if_neg (not_not_intro hb)] at h
        rw [if_pos hneg] at h
        exact Except.noConfusion h
      · rw [if_pos hb] at h
        exact Except.noConfusion h
    · rw [if_pos (by simpa using hs)] at h
      exact Except.noConfusion h
  · intro o e he hlt c h
    unfold V2.mkCursor at h
    by_cases hs : o.hasSource = true
    · rw [if_neg (by simp [hs])] at h
      by_cases hb : 0 < o.bufferSize.getD 16384
      · rw [if_neg (not_not_intro hb)] at h
        by_cases hneg : o.startFrom.getD 0 < 0
        · rw [if_pos hneg] at h
          exact Except.noConfusion h
        · rw [if_neg hneg] at h
          simp only [he, Option.getD_some] at h
          rw [if_pos hlt] at h
          exact Except.noConfusion h
      · rw [if_pos hb] at h
        exact Except.noConfusion h
    · rw [if_pos (by simpa using hs)] at h
      exact Except.noConfusion h
  · intro o c file h
    have := V2.mkCursor_ok o c file h
    exact ⟨this.1, this.2.1, this.2.2.1⟩
  · intro o h
    unfold V1.mkCursor
    rw [if_pos (by simp [h])]
  · intro o c file h
    have := V1.mkCursor_ok1 o c file h
    exact ⟨this.1, this.2.1⟩

/-- C8 (witness). -/
theorem C8_construction_witness :
    V2.mkCursor ⟨false, none, none, none⟩ = .error "Expected file descriptor"
    ∧ V2.mkCursor ⟨true, some 0, none, none⟩ ≠ .ok (V2.c0 16384)
    ∧ V2.mkCursor ⟨true, none, some (-1), none⟩ ≠ .ok (V2.c0 16384)
    ∧ V2.mkCursor ⟨true, none, some 2, some (some 1)⟩ ≠ .ok (V2.c0 16384)
    ∧ (V2.Inv [] (V2.c0 16384) ∧ V2.position (V2.c0 16384) = 0
        ∧ V2.EOF (V2.c0 16384) = false)
    ∧ V1.mkCursor ⟨false, none, none⟩ = .error "Expected file descriptor"
    ∧ (V1.Inv [] (V1.c0 16384) ∧ V1.eof (V1.c0 16384) = false) :=
  ⟨C8_construction.1 ⟨false, none, none, none⟩ rfl,
   C8_construction.2.1 ⟨true, some 0, none, none⟩ rfl (V2.c0 16384),
   C8_construction.2.2.1 ⟨true, none, some (-1), none⟩ (by decide) (V2.c0 16384),
   C8_construction.2.2.2.1 ⟨true, none, some 2, some (some 1)⟩ 1 rfl (by decide)
     (V2.c0 16384),
   C8_construction.2.2.2.2.2.1 ⟨true, none, none, none⟩ (V2.c0 16384) [] rfl,
   C8_construction.2.2.2.2.2.2.1 ⟨false, none, none⟩ rfl,
   C8_construction.2.2.2.2.2.2.2.2.2 ⟨true, none, none⟩ (V1.c0 16384) [] rfl⟩

/-- C9 (counterexample).  The claim states that `cache_cursor` never
exceeds the cache length in any reachable state.  A V2 `seekUntil` that
ends at an empty cache refill leaves `relIndex = 1` with an empty buffer:
`1 > 0`. -/
theorem C9_counterexample :
    (V2.seekUntil [4] 10 (V2.c0 1) (fun _ _ => false)).map
        (fun r => (r.cur.relIndex, r.cur.buffer.length)) = some (1, 0)
    ∧ ¬ ((1 : Nat) ≤ 0) := by
  refine ⟨by decide, by decide⟩

/-- C9 (amended).  V1 maintains `index ≤ buffer.length` after every
operation.  V2's `set` also re-establishes `relIndex ≤ buffer.length`, but
`seek`/`seekUntil` maintain only `relIndex ≤ buffer.length + 1`: the bound
is exceeded by exactly one, and only in the flagged end-of-data state with
an empty buffer and `relIndex = 1` reached when a mid-scan cache refill
comes back empty. -/
theorem C9_cache_cursor :
    (∀ (file : List Nat) (c : V1.Cursor) (n : Nat), V1.Inv file c →
      (V1.seek file c n).2.1.index ≤ (V1.seek file c n).2.1.buffer.length)
    ∧ (∀ (c : V1.Cursor) (v : Nat),
        (V1.setPos c v).index ≤ (V1.setPos c v).buffer.length)
    ∧ (∀ (file : List Nat) (c : V2.Cursor) (p : Nat),
        (V2.set file c p).1.relIndex ≤ (V2.set file c p).1.buffer.length)
    ∧ (∀ (file : List Nat) (fuel : Nat) (c : V2.Cursor) (n : Nat)
        (run : V2.Run), V2.Inv file c → V2.seek file fuel c n = some run →
        run.cur.relIndex ≤ run.cur.buffer.length + 1
        ∧ (run.cur.buffer.length < run.cur.relIndex →
            run.cur.buffer = [] ∧ run.cur.relIndex = 1
              ∧ run.cur.eofReached = true))
    ∧ (∀ (file : List Nat) (fuel : Nat) (c : V2.Cursor)
        (pred : Option Nat → Nat → Bool) (run : V2.Run),
        V2.Inv file c → V2.seekUntil file fuel c pred = some run →
        run.cur.relIndex ≤ run.cur.buffer.length + 1) := by
  refine ⟨?_, ?_, ?_, ?_, ?_⟩
  · intro file c n hInv
    exact ((V1.seek_spec1 file c n hInv).2.2.2.2.2.2).2.1
  · intro c v
    simp only [V1.setPos]
    split_ifs with h
    · show v - c.pos ≤ c.buffer.length
      omega
    · exact Nat.le_refl 0
  · intro file c p
    simp only [V2.set]
    split_ifs with h1 h2
    · show p - c.absIndex ≤ c.buffer.length
      omega
    · exact Nat.le_refl 0
    · exact Nat.zero_le _
  · intro file fuel c n run hInv h
    have hs := V2.seek_spec file fuel c n run hInv h
    exact ⟨hs.2.2.2.2.2.2.2.2.2.2.1, hs.2.2.2.2.2.2.2.2.2.2.2⟩
  · intro file fuel c pred run hInv h
    by_cases hEOF : V2.EOF c = true
    · rw [V2.seekUntil_eof file fuel c pred hEOF] at h
      cases h
      rcases hInv.2.1 with h' | ⟨hb, hr, _⟩
      · show c.relIndex ≤ c.buffer.length + 1
        omega
      · show c.relIndex ≤ c.buffer.length + 1
        rw [hr, hb]
        simp
    · have hEOF' : V2.EOF c = false := by simpa using hEOF
      obtain ⟨k, ph, _, _, _, g4, g5, _, _, _, _, _⟩ :=
        V2.seekUntil_spec file fuel c pred run hInv hEOF' h
      cases ph with
      | false =>
        have := g5 rfl
        omega
      | true =>
        obtain ⟨_, hb, hr, _⟩ := g4 rfl
        rw [hr, hb]
        simp

/-- C9 (witness). -/
theorem C9_cache_cursor_witness :
    V1.Inv [1, 2, 3] (V1.c0 2)
    ∧ (V1.seek [1, 2, 3] (V1.c0 2) 2).2.1.index
        ≤ (V1.seek [1, 2, 3] (V1.c0 2) 2).2.1.buffer.length
    ∧ V2.Inv [4] (V2.c0 1)
    ∧ (∀ run : V2.Run,
        V2.seekUntil [4] 10 (V2.c0 1) (fun _ _ => false) = some run →
        run.cur.relIndex ≤ run.cur.buffer.length + 1) := by
  have h1 : V1.Inv [1, 2, 3] (V1.c0 2) := V1.c0_inv1 [1, 2, 3] 2 (by decide)
  have h2 : V2.Inv [4] (V2.c0 1) := V2.c0_inv [4] 1 (by decide)
  exact ⟨h1, C9_cache_cursor.1 [1, 2, 3] (V1.c0 2) 2 h1, h2,
    fun run h => C9_cache_cursor.2.2.2.2 [4] 10 (V2.c0 1) _ run h2 h⟩

/-- C10.  When a mid-scan cache refill comes back empty (end-of-data is
reached at the refill position), the `seekUntil` loop invokes the
predicate one additional, final time with an `undefined` byte (`none`) at
the end-of-data position, then terminates and returns the bytes consumed
so far; the final cursor carries the flagged end-of-data state. -/
theorem C10_phantom_call :
    (∀ (file : List Nat) (pred : Option Nat → Nat → Bool) (fuel : Nat)
        (c : V2.Cursor) (start : Nat) (acc : List Nat)
        (tr : List (Option Nat × Nat)) (fs : List (Nat × Nat)),
      0 < c.bufferSize → V2.EOB c = true →
      V2.winBytes file c.startFrom c.endAt (c.absIndex + c.buffer.length)
        = [] →
      V2.seekUntilGo file pred (fuel+1) c start acc tr fs
        = some ⟨acc ++ c.buffer.drop start,
            { c with absIndex := c.absIndex + c.buffer.length, relIndex := 1, buffer := [], eofReached := true },
            tr ++ [(none, c.absIndex + c.buffer.length)],
            fs ++ (V2.set file c (c.absIndex + c.buffer.length)).2.toList⟩)
    ∧ (∀ (file : List Nat) (pred : Option Nat → Nat → Bool) (fuel : Nat)
        (c : V2.Cursor), V2.Inv file c → V2.EOF c = false →
      V2.EOB c = true →
      V2.winBytes file c.startFrom c.endAt (c.absIndex + c.buffer.length)
        = [] →
      V2.seekUntil file (fuel+1) c pred
        = some ⟨c.buffer.drop c.relIndex,
            { c with absIndex := c.absIndex + c.buffer.length, relIndex := 1, buffer := [], eofReached := true },
            [(none, c.absIndex + c.buffer.length)],
            (V2.set file c (c.absIndex + c.buffer.length)).2.toList⟩) := by
  refine ⟨V2.seekUntil_phantom, ?_⟩
  intro file pred fuel c hInv hEOF hEOB hw
  unfold V2.seekUntil
  rw [if_neg (by simp [hEOF])]
  rw [V2.seekUntil_phantom file pred fuel c c.relIndex [] [] []
    hInv.2.2.1 hEOB hw]
  simp

/-- C10 (witness). -/
theorem C10_phantom_call_witness :
    V2.Inv [5, 6] (⟨0, none, 2, 0, 2, [5, 6], false⟩ : V2.Cursor)
    ∧ V2.seekUntil [5, 6] 10 (⟨0, none, 2, 0, 2, [5, 6], false⟩ : V2.Cursor)
        (fun _ _ => false)
      = some ⟨[], ⟨0, none, 2, 2, 1, [], true⟩, [(none, 2)], [(2, 2)]⟩ := by
  have hInv : V2.Inv [5, 6] (⟨0, none, 2, 0, 2, [5, 6], false⟩ : V2.Cursor) := by
    refine ⟨by decide, Or.inl (by decide), by decide, ?_, ?_, ?_⟩
    · intro e he _
      exact Option.noConfusion he
    · intro hf
      exact absurd hf (by decide)
    · intro e he _ _
      exact Option.noConfusion he
  refine ⟨hInv, ?_⟩
  exact C10_phantom_call.2 [5, 6] (fun _ _ => false) 9
    (⟨0, none, 2, 0, 2, [5, 6], false⟩ : V2.Cursor) hInv rfl rfl rfl

end FileCursor
